import Mathlib

/-!
Verification of the spack version algebra module (lib/spack/spack/version.py).

The definitions below are a shallow embedding of the Python source:
`Version` values are tokenized into alternating alphabetic / numeric
segments, `VersionRange` carries optional endpoints plus inclusivity
flags, and `VersionList` is the sorted merged container maintained by
`add`.  Fallible Python code (raise / assert) is modelled with
`Except VErr`.
-/

deriving instance DecidableEq for Except

namespace Spack

/-- Error values corresponding to the exceptions the Python module raises. -/
inductive VErr where
  /-- ValueError from Version.__init__ (bad characters). -/
  | badChars : VErr
  /-- ValueError from VersionRange.__init__ (end earlier than start). -/
  | badRange : VErr
  /-- ValueError from check_for_star_components (star in an inequality). -/
  | starIneq : VErr
  /-- ValueError from unpacking string.split into two names. -/
  | splitErr : VErr
  /-- A failing Python assert statement. -/
  | assertFail : VErr
  /-- IndexError from indexing an empty tuple. -/
  | indexError : VErr
  /-- TypeError from VersionList.add. -/
  | typeErr : VErr
deriving DecidableEq, Repr

/-- A version segment: a maximal numeric run (stored as an integer by
`int_if_int`) or a maximal alphabetic run (kept as a string). -/
inductive Seg where
  | num (n : Nat) : Seg
  | str (s : String) : Seg
deriving DecidableEq, Repr

instance : BEq Seg := ⟨fun a b => decide (a = b)⟩

@[simp] theorem Seg.beq_iff (a b : Seg) : (a == b) = true ↔ a = b := by
  simp [BEq.beq]

/-- The `infinity_versions` list from the source, in its fixed priority order. -/
def infinity_versions : List String := ["develop", "main", "master", "head", "trunk"]

/-- Membership of a segment in `infinity_versions` (Python `a in infinity_versions`;
an integer segment is never a member). -/
def Seg.isInf : Seg → Bool
  | .num _ => false
  | .str s => infinity_versions.contains s

/-- `infinity_versions.index(a)` for an alphabetic segment known to be a member. -/
def Seg.infIdx : Seg → Nat
  | .num _ => 0
  | .str s => infinity_versions.indexOf s

/-- Comparison of one pair of unequal segments, mirroring the body of the
`for a, b in zip(...)` loop of `Version.__lt__`: infinity tokens compare by
(reversed) index, an infinity token beats everything else, an integer beats a
non-infinity alphabetic token, and otherwise the natural order of the common
type applies. -/
def segLt (a b : Seg) : Bool :=
  if a.isInf then
    if b.isInf then decide (a.infIdx > b.infIdx) else false
  else if b.isInf then
    true
  else
    match a, b with
    | .num x, .num y => decide (x < y)
    | .str s, .str t => decide (s < t)
    | .num _, .str _ => false
    | .str _, .num _ => true

/-- The zip walk of `Version.__lt__`: skip equal segments, decide at the first
unequal pair via `segLt`, and fall back to comparing lengths when one segment
sequence is exhausted. -/
def segsLtAux : List Seg → List Seg → Bool
  | a :: xs, b :: ys => if a = b then segsLtAux xs ys else segLt a b
  | xs, ys => decide (xs.length < ys.length)

/-- `Version.__lt__` on segment sequences, including the leading
`self.version == other.version` short-circuit of the source. -/
def segsLt (x y : List Seg) : Bool :=
  if x = y then false else segsLtAux x y

instance : LawfulBEq Seg where
  eq_of_beq h := by simpa [BEq.beq] using h
  rfl := by intro a; simp [BEq.beq]

/-- The character class `VALID_VERSION = [A-Za-z0-9_\.\*\-]`. -/
def validChar (c : Char) : Bool :=
  (('A' ≤ c && c ≤ 'Z') || ('a' ≤ c && c ≤ 'z') || ('0' ≤ c && c ≤ '9') ||
    c = '_' || c = '.' || c = '*' || c = '-')

/-- Characters matched by the regex class `[a-zA-Z]`. -/
def isAlphaC (c : Char) : Bool := ('A' ≤ c && c ≤ 'Z') || ('a' ≤ c && c ≤ 'z')

/-- Characters matched by the regex class `[0-9]`. -/
def isDigitC (c : Char) : Bool := '0' ≤ c && c ≤ '9'

/-- Characters matched by either run class of `segment_regex`. -/
def isAlnumC (c : Char) : Bool := isAlphaC c || isDigitC c

/-- Whitespace removed by Python `str.strip()`. -/
def pySpace (c : Char) : Bool :=
  c = ' ' || c = '\t' || c = '\n' || c = '\r' || c = '\x0b' || c = '\x0c'

/-- Maximal run of characters satisfying `p`, plus the remainder. -/
def takeRun (p : Char → Bool) : List Char → List Char × List Char
  | [] => ([], [])
  | c :: cs =>
    if p c then
      let r := takeRun p cs
      (c :: r.1, r.2)
    else ([], c :: cs)

theorem takeRun_snd_length (p : Char → Bool) (cs : List Char) :
    (takeRun p cs).2.length ≤ cs.length := by
  induction cs with
  | nil => simp [takeRun]
  | cons c cs ih =>
    simp only [takeRun]
    split
    · exact Nat.le_succ_of_le ih
    · exact Nat.le_refl _

/-- Both-ends whitespace trim, as in Python `str.strip()`. -/
def stripChars (cs : List Char) : List Char :=
  ((cs.dropWhile pySpace).reverse.dropWhile pySpace).reverse

/-- Scan `re.findall(r'[a-zA-Z]+|[0-9]+', s)` together with
`re.split(segment_regex, s)[1:]`: each result pair is one maximal run and the
non-run gap that follows it.  The input is the remainder after the leading
gap, so its head (when any) belongs to a run.  The fuel argument only makes
the recursion structural; every step consumes at least one character, so any
fuel at least the input length yields the full scan. -/
def scanPieces : Nat → List Char → List (List Char × List Char)
  | _, [] => []
  | 0, _ :: _ => []
  | fuel + 1, c :: cs =>
    let p := if isAlphaC c then isAlphaC else isDigitC
    let run := takeRun p cs
    let gap := takeRun (fun d => !isAlnumC d) run.2
    (c :: run.1, gap.1) :: scanPieces fuel gap.2

/-- All (run, following gap) pieces of a string: drop the leading gap, then scan. -/
def tokenizePieces (cs : List Char) : List (List Char × List Char) :=
  scanPieces cs.length (takeRun (fun d => !isAlnumC d) cs).2

/-- Numeric value of a digit run. -/
def digitsToNat (cs : List Char) : Nat :=
  cs.foldl (fun a c => a * 10 + (c.toNat - '0'.toNat)) 0

/-- `int_if_int` applied to one run: digit runs become integers, alphabetic
runs stay strings. -/
def segOfPiece (p : List Char × List Char) : Seg :=
  match p.1 with
  | [] => .str ""
  | c :: _ => if isDigitC c then .num (digitsToNat p.1) else .str (String.mk p.1)

/-- The `Version` value: the trimmed source string, the segment tuple, and the
separator strings that follow each segment. -/
structure VersionT where
  string : String
  version : List Seg
  separators : List String
deriving DecidableEq, Repr

/-- `Version.__init__`: reject an empty string or one whose first character is
outside `VALID_VERSION` (the anchored single-character `re.match` checks no
more than that), then trim and tokenize. -/
def mkVersion (s : String) : Except VErr VersionT :=
  match s.data with
  | [] => .error .badChars
  | c :: _ =>
    if validChar c then
      let cs := stripChars s.data
      let pieces := tokenizePieces cs
      .ok { string := String.mk cs
            version := pieces.map segOfPiece
            separators := pieces.map fun p => String.mk p.2 }
    else .error .badChars

/-- `Version.__eq__` (and the tuple-based hash): segment tuples only. -/
def vEq (a b : VersionT) : Bool := decide (a.version = b.version)

/-- `Version.__lt__`. -/
def vLt (a b : VersionT) : Bool := segsLt a.version b.version

/-- `Version.__le__` is `self == other or self < other`. -/
def vLe (a b : VersionT) : Bool := vEq a b || vLt a b

/-- `Version.__gt__` is `not (self == other) and not (self < other)`. -/
def vGt (a b : VersionT) : Bool := !vEq a b && !vLt a b

/-- `Version.__contains__`: `other in self` iff `self.version` is a prefix of
`other.version`. -/
def vContains (self other : VersionT) : Bool :=
  self.version.isPrefixOf other.version

/-- `Version.satisfies`: `other.version` is a prefix of `self.version`. -/
def vSatisfies (self other : VersionT) : Bool :=
  other.version.isPrefixOf self.version

/-- `Version.is_predecessor`: equal segment counts, both final segments
integers, and the other's final segment is one more.  Indexing an empty
segment tuple raises IndexError. -/
def vIsPredecessor (self other : VersionT) : Except VErr Bool :=
  if self.version.length ≠ other.version.length then .ok false
  else
    match self.version.getLast?, other.version.getLast? with
    | some sl, some ol =>
      .ok (match sl, ol with
           | .num a, .num b => decide (b = a + 1)
           | _, _ => false)
    | _, _ => .error .indexError

/-- `Version.overlaps` (after coercion to two Versions). -/
def vOverlaps (self other : VersionT) : Bool :=
  vContains other self || vContains self other

/-! ### Order theory for segments and segment sequences -/

theorem seg_inf_inj {s t : String}
    (hs : s ∈ infinity_versions) (ht : t ∈ infinity_versions)
    (h : infinity_versions.indexOf s = infinity_versions.indexOf t) : s = t :=
  (List.indexOf_inj hs ht).1 h

theorem String.data_ne {s t : String} (h : s ≠ t) : s.data ≠ t.data := by
  intro he
  apply h
  cases s; cases t
  exact congrArg String.mk he

theorem segLt_irrefl (a : Seg) : segLt a a = false := by
  cases a with
  | num n => simp [segLt, Seg.isInf]
  | str s =>
    by_cases h : s ∈ infinity_versions <;>
      simp [segLt, Seg.isInf, h, Seg.infIdx]

theorem segLt_asymm {a b : Seg} (h : segLt a b = true) : segLt b a = false := by
  cases a with
  | num x =>
    cases b with
    | num y =>
      simp [segLt, Seg.isInf] at h ⊢
      omega
    | str t =>
      by_cases ht : t ∈ infinity_versions <;>
        simp [segLt, Seg.isInf, ht] at h ⊢
  | str s =>
    cases b with
    | num y =>
      by_cases hs : s ∈ infinity_versions <;>
        simp [segLt, Seg.isInf, hs] at h ⊢
    | str t =>
      by_cases hs : s ∈ infinity_versions <;>
        by_cases ht : t ∈ infinity_versions <;>
        simp [segLt, Seg.isInf, hs, ht] at h ⊢
      · omega
      · exact le_of_lt h

theorem segLt_total {a b : Seg} (h : a ≠ b) :
    segLt a b = true ∨ segLt b a = true := by
  cases a with
  | num x =>
    cases b with
    | num y =>
      have : x ≠ y := fun he => h (by rw [he])
      simp [segLt, Seg.isInf]
      omega
    | str t =>
      by_cases ht : t ∈ infinity_versions <;>
        simp [segLt, Seg.isInf, ht]
  | str s =>
    cases b with
    | num y =>
      by_cases hs : s ∈ infinity_versions <;>
        simp [segLt, Seg.isInf, hs]
    | str t =>
      have hst : s ≠ t := fun he => h (by rw [he])
      by_cases hs : s ∈ infinity_versions <;>
        by_cases ht : t ∈ infinity_versions <;>
        simp [segLt, Seg.isInf, hs, ht]
      · have : infinity_versions.indexOf s ≠ infinity_versions.indexOf t :=
          fun he => hst (seg_inf_inj hs ht he)
        simp [Seg.infIdx]
        omega
      · exact String.data_ne hst

theorem segLt_trans {a b c : Seg} (h1 : segLt a b = true)
    (h2 : segLt b c = true) : segLt a c = true := by
  cases a with
  | num x =>
    cases b with
    | num y =>
      cases c with
      | num z =>
        simp [segLt, Seg.isInf] at *
        omega
      | str u =>
        by_cases hu : u ∈ infinity_versions <;>
          simp [segLt, Seg.isInf, hu] at *
    | str t =>
      cases c with
      | num z =>
        by_cases ht : t ∈ infinity_versions <;>
          simp [segLt, Seg.isInf, ht] at *
      | str u =>
        by_cases ht : t ∈ infinity_versions <;>
          by_cases hu : u ∈ infinity_versions <;>
          simp [segLt, Seg.isInf, ht, hu] at *
  | str s =>
    cases b with
    | num y =>
      cases c with
      | num z =>
        by_cases hs : s ∈ infinity_versions <;>
          simp [segLt, Seg.isInf, hs] at *
      | str u =>
        by_cases hs : s ∈ infinity_versions <;>
          by_cases hu : u ∈ infinity_versions <;>
          simp [segLt, Seg.isInf, hs, hu] at *
    | str t =>
      cases c with
      | num z =>
        by_cases hs : s ∈ infinity_versions <;>
          by_cases ht : t ∈ infinity_versions <;>
          simp [segLt, Seg.isInf, hs, ht] at *
      | str u =>
        by_cases hs : s ∈ infinity_versions <;>
          by_cases ht : t ∈ infinity_versions <;>
          by_cases hu : u ∈ infinity_versions <;>
          simp [segLt, Seg.isInf, hs, ht, hu] at *
        · omega
        · exact lt_trans h1 h2

theorem segsLtAux_asymm : ∀ {x y : List Seg},
    segsLtAux x y = true → segsLtAux y x = false
  | [], [] => by simp [segsLtAux]
  | [], _ :: _ => by simp [segsLtAux]
  | _ :: _, [] => by simp [segsLtAux]
  | a :: xs, b :: ys => by
    by_cases hab : a = b
    · subst hab
      simp only [segsLtAux, if_pos rfl]
      exact segsLtAux_asymm
    · have hba : b ≠ a := fun he => hab he.symm
      simp only [segsLtAux, if_neg hab, if_neg hba]
      exact segLt_asymm

theorem segsLtAux_total : ∀ {x y : List Seg}, x ≠ y →
    segsLtAux x y = true ∨ segsLtAux y x = true
  | [], [], h => absurd rfl h
  | [], _ :: _, _ => by simp [segsLtAux]
  | _ :: _, [], _ => by simp [segsLtAux]
  | a :: xs, b :: ys, h => by
    by_cases hab : a = b
    · subst hab
      have hxy : xs ≠ ys := fun he => h (by rw [he])
      simpa [segsLtAux] using segsLtAux_total hxy
    · have hba : b ≠ a := fun he => hab he.symm
      simp only [segsLtAux, if_neg hab, if_neg hba]
      exact segLt_total hab

theorem segsLtAux_trans : ∀ {x y z : List Seg},
    segsLtAux x y = true → segsLtAux y z = true → segsLtAux x z = true
  | [], [], _, h1, _ => by simp [segsLtAux] at h1
  | [], _ :: _, [], _, h2 => by simp [segsLtAux] at h2
  | [], _ :: _, _ :: _, _, _ => by simp [segsLtAux]
  | _ :: _, [], _, h1, _ => by simp [segsLtAux] at h1
  | _ :: _, _ :: _, [], _, h2 => by simp [segsLtAux] at h2
  | a :: xs, b :: ys, c :: zs, h1, h2 => by
    by_cases hab : a = b <;> by_cases hbc : b = c
    · subst hab; subst hbc
      simp only [segsLtAux, if_pos rfl] at *
      exact segsLtAux_trans h1 h2
    · subst hab
      simp only [segsLtAux, if_pos rfl, if_neg hbc] at *
      exact h2
    · subst hbc
      simp only [segsLtAux, if_neg hab] at *
      exact h1
    · simp only [segsLtAux, if_neg hab, if_neg hbc] at h1 h2
      have hlt : segLt a c = true := by
        by_cases hac : a = c
        · subst hac
          have := segLt_asymm h1
          rw [this] at h2
          exact absurd h2 (by simp)
        · exact segLt_trans h1 h2
      have hac : a ≠ c := by
        intro he; subst he
        rw [segLt_irrefl] at hlt
        exact absurd hlt (by simp)
      simp only [segsLtAux, if_neg hac]
      exact hlt

theorem segsLt_trans {x y z : List Seg} (h1 : segsLt x y = true)
    (h2 : segsLt y z = true) : segsLt x z = true := by
  unfold segsLt at *
  by_cases hxy : x = y
  · simp [hxy] at h1
  by_cases hyz : y = z
  · simp [hyz] at h2
  simp only [if_neg hxy] at h1
  simp only [if_neg hyz] at h2
  have hxz : x ≠ z := by
    intro he; subst he
    have := segsLtAux_asymm h1
    rw [this] at h2
    exact absurd h2 (by simp)
  simp only [if_neg hxz]
  exact segsLtAux_trans h1 h2

theorem segsLt_irrefl (x : List Seg) : segsLt x x = false := by
  simp [segsLt]

theorem segsLt_asymm {x y : List Seg} (h : segsLt x y = true) :
    segsLt y x = false := by
  unfold segsLt at *
  by_cases hxy : x = y
  · simp [hxy] at h
  · have hyx : y ≠ x := fun he => hxy he.symm
    simp only [if_neg hxy] at h
    simp only [if_neg hyx]
    exact segsLtAux_asymm h

theorem segsLt_total {x y : List Seg} (h : x ≠ y) :
    segsLt x y = true ∨ segsLt y x = true := by
  have hyx : y ≠ x := fun he => h he.symm
  unfold segsLt
  simp only [if_neg h, if_neg hyx]
  exact segsLtAux_total h

theorem segsLtAux_of_prefix : ∀ {x y : List Seg}, x <+: y → x ≠ y →
    segsLtAux x y = true
  | [], y, _, hne => by
    cases y with
    | nil => exact absurd rfl hne
    | cons b ys => simp [segsLtAux]
  | a :: xs, y, hp, hne => by
    obtain ⟨t, ht⟩ := hp
    subst ht
    simp only [List.cons_append, segsLtAux, if_pos rfl]
    exact segsLtAux_of_prefix ⟨t, rfl⟩
      (fun he => hne (congrArg (List.cons a) he))

theorem segsLt_of_prefix {x y : List Seg} (hp : x <+: y) (hne : x ≠ y) :
    segsLt x y = true := by
  unfold segsLt
  simp only [if_neg hne]
  exact segsLtAux_of_prefix hp hne

/-- C1: the strict order of `Version.__lt__` is a strict total order on
segment sequences: it is transitive, and for any two Versions exactly one of
`x < y`, `x == y`, `y < x` holds.  Moreover an infinity token compares above
any non-infinity segment, an integer segment compares above a non-infinity
alphabetic segment, and a Version whose segments form a proper prefix of
another Version's segments compares below it. -/
theorem version_lt_strict_total_order :
    (∀ x y z : VersionT, vLt x y = true → vLt y z = true → vLt x z = true) ∧
    (∀ x y : VersionT,
      (vLt x y = true ∧ vEq x y = false ∧ vLt y x = false) ∨
      (vEq x y = true ∧ vLt x y = false ∧ vLt y x = false) ∨
      (vLt y x = true ∧ vEq x y = false ∧ vLt x y = false)) ∧
    (∀ a b : Seg, a.isInf = true → b.isInf = false → segLt b a = true) ∧
    (∀ (n : Nat) (s : String), (Seg.str s).isInf = false →
      segLt (Seg.str s) (Seg.num n) = true) ∧
    (∀ x y : VersionT, x.version <+: y.version → x.version ≠ y.version →
      vLt x y = true) := by
  refine ⟨?_, ?_, ?_, ?_, ?_⟩
  · intro x y z h1 h2
    exact segsLt_trans h1 h2
  · intro x y
    by_cases he : x.version = y.version
    · refine Or.inr (Or.inl ?_)
      unfold vEq vLt segsLt
      simp [he]
    · have hne : y.version ≠ x.version := fun h => he h.symm
      rcases segsLt_total he with h | h
      · exact Or.inl ⟨h, by simp [vEq, he], segsLt_asymm h⟩
      · exact Or.inr (Or.inr ⟨h, by simp [vEq, he], segsLt_asymm h⟩)
  · intro a b ha hb
    cases b with
    | num y =>
      cases a with
      | num x => simp [Seg.isInf] at ha
      | str s =>
        have ha' : s ∈ infinity_versions := by
          simpa [Seg.isInf] using ha
        simp [segLt, Seg.isInf, ha']
    | str t =>
      cases a with
      | num x => simp [Seg.isInf] at ha
      | str s =>
        have ha' : s ∈ infinity_versions := by
          simpa [Seg.isInf] using ha
        have hb' : t ∉ infinity_versions := by
          simpa [Seg.isInf] using hb
        simp [segLt, Seg.isInf, ha', hb']
  · intro n s hs
    have hs' : s ∉ infinity_versions := by
      simpa [Seg.isInf] using hs
    simp [segLt, Seg.isInf, hs']
  · intro x y hp hne
    exact segsLt_of_prefix hp hne

/-- Witness for `version_lt_strict_total_order`: transitivity applied at
1.2 < 1.2.5 < 1.3, and the prefix clause at 4.7 below 4.7.3. -/
theorem version_lt_strict_total_order_witness :
    vLt ⟨"1.2", [.num 1, .num 2], []⟩ ⟨"1.3", [.num 1, .num 3], []⟩ = true ∧
    vLt ⟨"4.7", [.num 4, .num 7], []⟩
      ⟨"4.7.3", [.num 4, .num 7, .num 3], []⟩ = true := by
  constructor
  · exact version_lt_strict_total_order.1
      ⟨"1.2", [.num 1, .num 2], []⟩
      ⟨"1.2.5", [.num 1, .num 2, .num 5], []⟩
      ⟨"1.3", [.num 1, .num 3], []⟩ (by decide) (by decide)
  · exact version_lt_strict_total_order.2.2.2.2
      ⟨"4.7", [.num 4, .num 7], []⟩
      ⟨"4.7.3", [.num 4, .num 7, .num 3], []⟩
      (by decide) (by decide)

/-! ### Endpoints and ranges -/

/-- Endpoint side: the `location` field of `_VersionEndpoint`. -/
inductive Loc where
  | left : Loc
  | right : Loc
deriving DecidableEq, Repr

/-- `_VersionEndpoint`. -/
structure VersionEndpoint where
  value : Option VersionT
  location : Loc
  includes_endpoint : Bool
deriving DecidableEq, Repr

/-- Python `==` between two `Version`-or-`None` values. -/
def optVEq : Option VersionT → Option VersionT → Bool
  | some a, some b => vEq a b
  | none, none => true
  | _, _ => false

/-- Python truthiness of a `Version`-or-`None` value: `None` is falsy, and a
`Version` is falsy iff its segment tuple is empty (`Version.__len__`). -/
def optTruthy : Option VersionT → Bool
  | some v => !v.version.isEmpty
  | none => false

/-- `_VersionEndpoint.__lt__` (assuming, as the decorator asserts, that both
endpoints are on the same side). -/
def epLt (s o : VersionEndpoint) : Bool :=
  if optVEq s.value o.value then
    if s.includes_endpoint != o.includes_endpoint then s.includes_endpoint
    else false
  else
    let infinite_left_wins : Bool := decide (s.location = Loc.left)
    match s.value, o.value with
    | none, _ => infinite_left_wins
    | some _, none => !infinite_left_wins
    | some sv, some ov => vLt sv ov

/-- `VersionRange`: optional endpoints plus the two inclusivity flags. -/
structure VRange where
  start : Option VersionT
  «end» : Option VersionT
  includes_left_endpoint : Bool
  includes_right_endpoint : Bool
deriving DecidableEq, Repr

/-- `VersionRange.__init__` (on already-converted Versions): raise when both
endpoints are truthy and `end < start`, and assert that a `None` endpoint
carries an inclusive flag. -/
def mkVersionRange (start «end» : Option VersionT)
    (includes_left_endpoint includes_right_endpoint : Bool) :
    Except VErr VRange :=
  if optTruthy start && optTruthy «end» &&
      (match start, «end» with
       | some s, some e => vLt e s
       | _, _ => false) then .error .badRange
  else if start.isNone && !includes_left_endpoint then .error .assertFail
  else if «end».isNone && !includes_right_endpoint then .error .assertFail
  else .ok ⟨start, «end», includes_left_endpoint, includes_right_endpoint⟩

/-- `VersionRange._low_endpoint`. -/
def lowEp (r : VRange) : VersionEndpoint :=
  ⟨r.start, .left, r.includes_left_endpoint⟩

/-- `VersionRange._high_endpoint`. -/
def highEp (r : VRange) : VersionEndpoint :=
  ⟨r.«end», .right, r.includes_right_endpoint⟩

/-- `VersionRange.__lt__`: low endpoints first; if that comparison is not
strict, the high endpoints decide. -/
def rangeLt (s o : VRange) : Bool :=
  epLt (lowEp s) (lowEp o) || epLt (highEp s) (highEp o)

/-- `VersionRange.__eq__`. -/
def rangeEq (s o : VRange) : Bool :=
  optVEq s.start o.start && optVEq s.«end» o.«end» &&
    (s.includes_left_endpoint == o.includes_left_endpoint) &&
    (s.includes_right_endpoint == o.includes_right_endpoint)

/-- `VersionRange.concrete`. -/
def rangeConcrete (r : VRange) : Except VErr (Option VersionT) :=
  if !optVEq r.start r.«end» then .ok none
  else
    match r.start with
    | none => if r.«end».isNone then .ok none else .error .assertFail
    | some v =>
      if r.includes_left_endpoint || r.includes_right_endpoint then
        if r.includes_left_endpoint == r.includes_right_endpoint then
          .ok (some v)
        else .error .assertFail
      else .ok none

/-- `VersionRange.__contains__` (`other in self`), with Python's operator
precedence: `A and B or C` parses as `(A and B) or C`. -/
def rangeContains (self other : VRange) : Bool :=
  let in_lower :=
    ((optVEq self.start other.start && !self.includes_left_endpoint) ||
      other.includes_left_endpoint)
    || self.start.isNone
    || (match self.start, other.start with
        | some ss, some os => vLt ss os || vContains ss os
        | _, _ => false)
  let in_upper :=
    ((optVEq self.«end» other.«end» && !self.includes_right_endpoint) ||
      other.includes_right_endpoint)
    || self.«end».isNone
    || (match self.«end», other.«end» with
        | some se, some oe => vGt se oe || vContains se oe
        | _, _ => false)
  in_lower && in_upper

/-- `VersionRange.overlaps`. -/
def rangeOverlaps (self other : VRange) : Bool :=
  (self.start.isNone || other.«end».isNone ||
    (match self.start, other.«end» with
     | some ss, some oe => vLe ss oe || vContains ss oe || vContains oe ss
     | _, _ => false)) &&
  (other.start.isNone || self.«end».isNone ||
    (match other.start, self.«end» with
     | some os, some se => vLe os se || vContains se os || vContains os se
     | _, _ => false))

/-- `VersionRange.satisfies`: overlap, or (when `self.start` and `other.end`
are both truthy Versions) the prefix satisfaction of the two endpoints. -/
def rangeSatisfies (self other : VRange) : Bool :=
  rangeOverlaps self other ||
    (optTruthy self.start && optTruthy other.«end» &&
      (match self.start, other.«end» with
       | some ss, some oe => vSatisfies ss oe
       | _, _ => false))

/-- The start chosen by the overlap branch of `VersionRange.union`:
`other.start` when it is a prefix of or below `self.start`. -/
def unionStart (self other : VRange) : Option VersionT :=
  if self.start.isNone || other.start.isNone then none
  else match self.start, other.start with
    | some ss, some os =>
      if vContains os ss || vLt os ss then some os else some ss
    | _, _ => none

/-- The end chosen by the overlap branch of `VersionRange.union`:
`other.end` when `self.end` is not a prefix of it but it is a prefix of or
above `self.end`. -/
def unionEnd (self other : VRange) : Option VersionT :=
  if self.«end».isNone || other.«end».isNone then none
  else match self.«end», other.«end» with
    | some se, some oe =>
      if !vContains se oe && (vContains oe se || vGt oe se) then some oe
      else some se
    | _, _ => none

/-- The overlap branch of `VersionRange.union`. -/
def rangeUnionMerged (self other : VRange) : Except VErr VRange :=
  mkVersionRange (unionStart self other) (unionEnd self other) true true

/-- `VersionRange.union`: merged single range when overlapping or
integer-adjacent, otherwise the two operands destined for a two-element
`VersionList([self, other])`. -/
def rangeUnion (self other : VRange) :
    Except VErr (Sum VRange (VRange × VRange)) :=
  if !rangeOverlaps self other then do
    let p1 ← (match self.«end», other.start with
              | some se, some os => vIsPredecessor se os
              | _, _ => pure false)
    if p1 then do
      let r ← mkVersionRange self.start other.«end» true true
      return .inl r
    else
      let p2 ← (match other.«end», self.start with
                | some oe, some ss => vIsPredecessor oe ss
                | _, _ => pure false)
      if p2 then do
        let r ← mkVersionRange other.start self.«end» true true
        return .inl r
      else return .inr (self, other)
  else (rangeUnionMerged self other).map Sum.inl

/-- `Version.union` (same class on both sides). -/
def versionUnion (self other : VersionT) :
    Sum VersionT (VersionT × VersionT) :=
  if vEq self other || vContains self other then .inl self
  else if vContains other self then .inl other
  else .inr (self, other)

/-! ### Elements of a VersionList and the coercion lattice -/

/-- A member of a `VersionList`. -/
inductive VElem where
  | version (v : VersionT) : VElem
  | range (r : VRange) : VElem
deriving DecidableEq, Repr

/-- `coerce_versions` promotion of a Version to the Range `(v, v)` with the
default inclusive flags. -/
def coerceR (v : VersionT) : VRange := ⟨some v, some v, true, true⟩

/-- `__lt__` between list elements after coercion. -/
def elemLt : VElem → VElem → Bool
  | .version a, .version b => vLt a b
  | .range a, .range b => rangeLt a b
  | .version a, .range b => rangeLt (coerceR a) b
  | .range a, .version b => rangeLt a (coerceR b)

/-- `__eq__` between list elements after coercion. -/
def elemEq : VElem → VElem → Bool
  | .version a, .version b => vEq a b
  | .range a, .range b => rangeEq a b
  | .version a, .range b => rangeEq (coerceR a) b
  | .range a, .version b => rangeEq a (coerceR b)

/-- `overlaps` between list elements after coercion. -/
def elemOverlaps : VElem → VElem → Bool
  | .version a, .version b => vOverlaps a b
  | .range a, .range b => rangeOverlaps a b
  | .version a, .range b => rangeOverlaps (coerceR a) b
  | .range a, .version b => rangeOverlaps a (coerceR b)

/-- `__contains__` between list elements after coercion (`other in self`). -/
def elemContains : VElem → VElem → Bool
  | .version a, .version b => vContains a b
  | .range a, .range b => rangeContains a b
  | .version a, .range b => rangeContains (coerceR a) b
  | .range a, .version b => rangeContains a (coerceR b)

/-- `satisfies` between list elements after coercion. -/
def elemSatisfies : VElem → VElem → Bool
  | .version a, .version b => vSatisfies a b
  | .range a, .range b => rangeSatisfies a b
  | .version a, .range b => rangeSatisfies (coerceR a) b
  | .range a, .version b => rangeSatisfies a (coerceR b)

/-- `concrete` of a list element. -/
def elemConcrete : VElem → Except VErr (Option VersionT)
  | .version v => .ok (some v)
  | .range r => rangeConcrete r

/-- `union` between list elements after coercion, keeping the Python result
shape: one merged element, or the ordered pair that `VersionList([self,
other])` would be built from. -/
def elemUnion2 : VElem → VElem → Except VErr (Sum VElem (VElem × VElem))
  | .version a, .version b =>
    match versionUnion a b with
    | .inl u => .ok (.inl (.version u))
    | .inr (x, y) => .ok (.inr (.version x, .version y))
  | .range a, .range b =>
    (rangeUnion a b).map fun
      | .inl u => .inl (.range u)
      | .inr (x, y) => .inr (.range x, .range y)
  | .version a, .range b =>
    (rangeUnion (coerceR a) b).map fun
      | .inl u => .inl (.range u)
      | .inr (x, y) => .inr (.range x, .range y)
  | .range a, .version b =>
    (rangeUnion a (coerceR b)).map fun
      | .inl u => .inl (.range u)
      | .inr (x, y) => .inr (.range x, .range y)

/-! ### VersionList: bisect, add, and the container operations -/

/-- One binary-search step of Python `bisect_left`, abstracted over the probe
`ltp m` = `a[m] < x`.  The fuel argument only makes the recursion structural;
`hi - lo` shrinks every step, so any fuel at least `hi - lo` completes the
search. -/
def bisectLoop (ltp : Nat → Bool) : Nat → Nat → Nat → Nat
  | 0, lo, _ => lo
  | fuel + 1, lo, hi =>
    if lo < hi then
      let mid := (lo + hi) / 2
      if ltp mid then bisectLoop ltp fuel (mid + 1) hi
      else bisectLoop ltp fuel lo mid
    else lo

/-- `bisect_left(self, version)` over the element list. -/
def bisect_left (l : List VElem) (x : VElem) : Nat :=
  bisectLoop (fun m => elemLt (l.getD m (.version ⟨"", [], []⟩)) x)
    l.length 0 l.length

theorem rangeUnion_no_pair {r s : VRange} (hov : rangeOverlaps r s = true)
    (pr : VRange × VRange) (h : rangeUnion r s = .ok (.inr pr)) : False := by
  unfold rangeUnion at h
  rw [hov] at h
  simp only [Bool.not_true, Bool.false_eq_true, if_false] at h
  cases hm : rangeUnionMerged r s <;> rw [hm] at h <;> simp [Except.map] at h

theorem versionUnion_no_pair {a b : VersionT} (hov : vOverlaps a b = true)
    (pr : VersionT × VersionT) (h : versionUnion a b = .inr pr) : False := by
  unfold versionUnion at h
  by_cases h2 : (vEq a b || vContains a b) = true
  · rw [if_pos h2] at h
    exact Sum.noConfusion h
  · rw [if_neg h2] at h
    have h3 : vContains b a = true := by
      rcases Bool.or_eq_true_iff.mp hov with h1 | h1
      · exact h1
      · exact absurd (Bool.or_eq_true_iff.mpr (Or.inr h1)) h2
    rw [if_pos h3] at h
    exact Sum.noConfusion h

/-- Under the overlap guard of `VersionList.add`, `union` never returns the
two-element list: both `Version.union` and `VersionRange.union` produce a
single value whenever their arguments overlap. -/
theorem elemUnion2_no_pair {a b : VElem} (hov : elemOverlaps a b = true)
    (pr : VElem × VElem) (h : elemUnion2 a b = .ok (.inr pr)) : False := by
  cases a with
  | version va =>
    cases b with
    | version vb =>
      simp only [elemOverlaps] at hov
      simp only [elemUnion2] at h
      cases hu : versionUnion va vb with
      | inl u => rw [hu] at h; simp at h
      | inr p => exact versionUnion_no_pair hov p hu
    | range rb =>
      simp only [elemOverlaps] at hov
      simp only [elemUnion2] at h
      cases hu : rangeUnion (coerceR va) rb with
      | error e => rw [hu] at h; simp [Except.map] at h
      | ok u =>
        cases u with
        | inl w => rw [hu] at h; simp [Except.map] at h
        | inr p => exact rangeUnion_no_pair hov p hu
  | range ra =>
    cases b with
    | version vb =>
      simp only [elemOverlaps] at hov
      simp only [elemUnion2] at h
      cases hu : rangeUnion ra (coerceR vb) with
      | error e => rw [hu] at h; simp [Except.map] at h
      | ok u =>
        cases u with
        | inl w => rw [hu] at h; simp [Except.map] at h
        | inr p => exact rangeUnion_no_pair hov p hu
    | range rb =>
      simp only [elemOverlaps] at hov
      simp only [elemUnion2] at h
      cases hu : rangeUnion ra rb with
      | error e => rw [hu] at h; simp [Except.map] at h
      | ok u =>
        cases u with
        | inl w => rw [hu] at h; simp [Except.map] at h
        | inr p => exact rangeUnion_no_pair hov p hu

/-- The backward merge loop of `VersionList.add`: the first list is the
already-stored prefix in reverse (nearest element first); overlapping
neighbours are absorbed into the incoming element by `union`. -/
def mergeBack : List VElem → VElem → Except VErr (List VElem × VElem)
  | [], v => .ok ([], v)
  | p :: ps, v =>
    if hov : elemOverlaps v p = true then
      match h : elemUnion2 v p with
      | .ok (.inl u) => mergeBack ps u
      | .ok (.inr pr) => (elemUnion2_no_pair hov pr h).elim
      | .error e => .error e
    else .ok (p :: ps, v)

/-- The forward merge loop of `VersionList.add` over the stored suffix. -/
def mergeForward : List VElem → VElem → Except VErr (List VElem × VElem)
  | [], v => .ok ([], v)
  | q :: qs, v =>
    if hov : elemOverlaps v q = true then
      match h : elemUnion2 v q with
      | .ok (.inl u) => mergeForward qs u
      | .ok (.inr pr) => (elemUnion2_no_pair hov pr h).elim
      | .error e => .error e
    else .ok (q :: qs, v)

/-- `if version.concrete: version = version.concrete` — the normalization at
the top of `VersionList.add` (the result of `concrete` is used under Python
truthiness, so a Version with an empty segment tuple does not replace the
element). -/
def normalizeAdd (e : VElem) : Except VErr VElem := do
  let c ← elemConcrete e
  match c with
  | some w => if w.version.isEmpty then pure e else pure (.version w)
  | none => pure e

/-- `VersionList.add` for a Version or VersionRange element: normalize,
bisect, absorb overlapping neighbours on both sides, insert. -/
def addElem (l : List VElem) (e0 : VElem) : Except VErr (List VElem) := do
  let v ← normalizeAdd e0
  let i := bisect_left l v
  let bw ← mergeBack (l.take i).reverse v
  let fw ← mergeForward (l.drop i) bw.2
  return bw.1.reverse ++ fw.2 :: fw.1

/-- `VersionList.add` for a VersionList argument: add each member in order. -/
def addMany (l : List VElem) (es : List VElem) : Except VErr (List VElem) :=
  es.foldlM addElem l

/-! ### Star components, the string parser and formatting -/

/-- The string of `Version.dotted`: both `-` and `_` replaced by `.`. -/
def dottedString (s : String) : String :=
  String.mk (s.data.map fun c => if c = '-' || c = '_' then '.' else c)

/-- `sep.startswith('.*')` as a pattern on the character list. -/
def startsWithDotStar (s : String) : Bool :=
  match s.data with
  | '.' :: '*' :: _ => true
  | _ => false

/-- `VersionRange.has_star_component` on a Version-or-None (a falsy Version —
`None` or one with no segments — returns False before `dotted` is taken). -/
def hasStarComponent (obj : Option VersionT) : Except VErr Bool :=
  if !optTruthy obj then .ok false
  else match obj with
  | some v => do
    let d ← mkVersion (dottedString v.string)
    return d.separators.any startsWithDotStar
  | none => .ok false

/-- `re.sub(r'^.\*', '', sep)`: drop the first two characters when the second
is a literal `*` (and the first is not a newline, which `.` cannot match). -/
def fixSep (s : String) : String :=
  match s.data with
  | c0 :: '*' :: rest => if c0 = '\n' then s else String.mk rest
  | _ => s

/-- `str(k)` for one segment when rebuilding a star-expanded version. -/
def segRender : Seg → String
  | .num n => toString n
  | .str s => s

/-- `''.join(str(k) + str(v) for k, v in zip(ends, fixed_seps))`: note that
`zip` truncates to the shorter list. -/
def joinSegs (ends : List Seg) (seps : List String) : String :=
  String.join (List.zipWith (fun k v => segRender k ++ v) ends seps)

/-- `VersionRange.check_for_star_components`: reject a star in a strict
inequality, expand `X.Y.*` into a half-open range (or, for an excluded
degenerate pair, the complement list). -/
def check_for_star_components (start «end» : Option VersionT)
    (includes_left_endpoint includes_right_endpoint : Bool) :
    Except VErr (Sum VRange (List VElem)) := do
  let would_be_range ← mkVersionRange start «end»
      includes_left_endpoint includes_right_endpoint
  let s1 ← hasStarComponent start
  let s2 ← hasStarComponent «end»
  let anyDotted := s1 || s2
  if !optVEq start «end» then
    if anyDotted then .error .starIneq else return .inl would_be_range
  else if includes_left_endpoint != includes_right_endpoint then
    .error .assertFail
  else if !anyDotted then return .inl would_be_range
  else
    match start with
    | none => .error .assertFail
    | some sv =>
      match sv.version.getLast? with
      | none => .error .indexError
      | some lastSeg =>
        let comps : List Seg :=
          match lastSeg with
          | .num _ => sv.version
          | .str _ => sv.version.dropLast
        let suffix : String :=
          match lastSeg with
          | .num _ => ""
          | .str s => s
        match comps.getLast? with
        | none => .error .indexError
        | some cl =>
          match cl with
          | .str _ => .error .typeErr
          | .num m => do
            let high_end := comps.dropLast ++ [Seg.num (m + 1)]
            let fixed_seps := sv.separators.map fixSep
            let low_ver ← mkVersion (joinSegs comps fixed_seps ++ suffix)
            let high_ver ← mkVersion (joinSegs high_end fixed_seps ++ suffix)
            if !includes_left_endpoint then
              if includes_right_endpoint then .error .assertFail
              else do
                let low_side ← mkVersionRange none (some low_ver) true false
                let high_side ← mkVersionRange (some high_ver) none true true
                let l ← addMany [] [.range low_side, .range high_side]
                return .inr l
            else do
              let r ← mkVersionRange (some low_ver) (some high_ver) true false
              return .inl r

/-- Python `str.split(sep)` for a one-character separator. -/
def splitOnChar (c : Char) : List Char → List (List Char)
  | [] => [[]]
  | x :: xs =>
    if x = c then [] :: splitOnChar c xs
    else
      match splitOnChar c xs with
      | r :: rs => (x :: r) :: rs
      | [] => [[x]]

/-- The result type of `ver` and `_string_to_version`. -/
inductive Parsed where
  | v (x : VersionT) : Parsed
  | r (x : VRange) : Parsed
  | l (xs : List VElem) : Parsed
deriving DecidableEq, Repr

/-- The `elif ':' in string` branch of `_string_to_version` applied to one
piece: both sides of the colon become optional Versions of an inclusive
range (a split into more than two parts raises). -/
def parseRangePiece (cs : List Char) : Except VErr VRange :=
  match splitOnChar ':' cs with
  | [a, b] => do
    let start ← if a.isEmpty then pure none
                else do let v ← mkVersion (String.mk a); pure (some v)
    let e ← if b.isEmpty then pure none
            else do let v ← mkVersion (String.mk b); pure (some v)
    mkVersionRange start e true true
  | _ => .error .splitErr

/-- `ver` applied to one comma-free piece of a VersionList string:
`_string_to_version` on the piece, then the star-expansion wrapper applied
to a lone Version. -/
def verPiece (p : List Char) : Except VErr (Sum VElem (List VElem)) :=
  if p.contains ':' then do
    let r ← parseRangePiece p
    return .inl (.range r)
  else do
    let v ← mkVersion (String.mk p)
    let st ← hasStarComponent (some v)
    if st then do
      match ← check_for_star_components (some v) (some v) true true with
      | .inl r => return .inl (.range r)
      | .inr es => return .inr es
    else return .inl (.version v)

/-- `VersionList.add` of a `ver` result. -/
def addAny (l : List VElem) : Sum VElem (List VElem) → Except VErr (List VElem)
  | .inl e => addElem l e
  | .inr es => addMany l es

/-- `ver` on a string: remove spaces, split a `,`-list into pieces collected
through `VersionList.add`, split a `:`-range, parse a plain Version (with
star expansion applied to a lone Version by the `ver` wrapper). -/
def verS (s0 : String) : Except VErr Parsed :=
  let s := (s0.data.filter (fun c => c ≠ ' '))
  if s.contains ',' then do
    let pieces := splitOnChar ',' s
    let l ← pieces.foldlM (fun acc p => do
        let pv ← verPiece p
        addAny acc pv) []
    return .l l
  else if s.contains ':' then do
    let r ← parseRangePiece s
    return .r r
  else do
    let v ← mkVersion (String.mk s)
    let st ← hasStarComponent (some v)
    if st then do
      match ← check_for_star_components (some v) (some v) true true with
      | .inl r => return .r r
      | .inr es => return .l es
    else return .v v

/-- `VersionRange.__str__` (Python asserts model the unrepresentable flag
combinations). -/
def rangeStr (r : VRange) : Except VErr String :=
  if optVEq r.start r.«end» then
    match r.start with
    | none => if r.«end».isNone then .ok ":" else .error .assertFail
    | some v =>
      if r.includes_left_endpoint == r.includes_right_endpoint then
        if r.includes_left_endpoint then .ok v.string
        else .ok (":!" ++ v.string ++ "!:")
      else .error .assertFail
  else
    match r.start, r.«end» with
    | none, none => .error .assertFail
    | none, some e =>
      if !r.includes_left_endpoint then .error .assertFail
      else if r.includes_right_endpoint then .ok (":" ++ e.string)
      else .ok (":!" ++ e.string)
    | some s, none =>
      if !r.includes_right_endpoint then .error .assertFail
      else if r.includes_left_endpoint then .ok (s.string ++ ":")
      else .ok (s.string ++ "!:")
    | some s, some e =>
      if !r.includes_left_endpoint && !r.includes_right_endpoint then
        .ok (s.string ++ "!:!" ++ e.string)
      else if !r.includes_right_endpoint then .ok (s.string ++ ":!" ++ e.string)
      else if !r.includes_left_endpoint then .ok (s.string ++ "!:" ++ e.string)
      else .ok (s.string ++ ":" ++ e.string)

/-- `str` of a list element. -/
def elemStr : VElem → Except VErr String
  | .version v => .ok v.string
  | .range r => rangeStr r

/-- `",".join(...)` as a structural recursion. -/
def joinComma : List String → String
  | [] => ""
  | [s] => s
  | s :: rest => s ++ "," ++ joinComma rest

/-- `VersionList.__str__`: comma-join of the element strings. -/
def listStr (l : List VElem) : Except VErr String := do
  let ss ← l.mapM elemStr
  return joinComma ss

/-! ### The remaining VersionList operations -/

/-- `VersionList.lowest`. -/
def listLowest (l : List VElem) : Option VersionT :=
  match l with
  | [] => none
  | e :: _ => match e with | .version v => some v | .range r => r.start

/-- `VersionList.highest`. -/
def listHighest (l : List VElem) : Option VersionT :=
  match l.getLast? with
  | none => none
  | some e => match e with | .version v => some v | .range r => r.«end»

/-- The two-pointer sweep of `VersionList.overlaps`.  The fuel argument
(any value at least the sum of the lengths) only makes the recursion
structural. -/
def listOverlapsLoop : Nat → List VElem → List VElem → Bool
  | 0, _, _ => false
  | fuel + 1, a :: as_, b :: bs =>
    if elemOverlaps a b then true
    else if elemLt a b then listOverlapsLoop fuel as_ (b :: bs)
    else listOverlapsLoop fuel (a :: as_) bs
  | _ + 1, _, _ => false

/-- `VersionList.overlaps`. -/
def listOverlaps (self other : List VElem) : Bool :=
  if other.isEmpty || self.isEmpty then false
  else listOverlapsLoop (self.length + other.length) self other

/-- The two-pointer sweep of `VersionList.satisfies` (fuel as above). -/
def listSatisfiesLoop : Nat → List VElem → List VElem → Bool
  | 0, _, _ => false
  | fuel + 1, a :: as_, b :: bs =>
    if elemSatisfies a b then true
    else if elemLt a b then listSatisfiesLoop fuel as_ (b :: bs)
    else listSatisfiesLoop fuel (a :: as_) bs
  | _ + 1, _, _ => false

/-- Python `list.__eq__` over the element lists. -/
def pyListEq : List VElem → List VElem → Bool
  | [], [] => true
  | a :: as_, b :: bs => elemEq a b && pyListEq as_ bs
  | _, _ => false

/-- Python `list.__lt__` over the element lists. -/
def pyListLt : List VElem → List VElem → Bool
  | [], [] => false
  | [], _ :: _ => true
  | _ :: _, [] => false
  | a :: as_, b :: bs => if elemEq a b then pyListLt as_ bs else elemLt a b

/-- Coercion of one element to a VersionList: `VersionList([obj])`, whose
constructor routes the element through `ver` (star expansion included) and
`add`. -/
def coerceL (e : VElem) : Except VErr (List VElem) :=
  match e with
  | .version v => do
    let st ← hasStarComponent (some v)
    if st then do
      match ← check_for_star_components (some v) (some v) true true with
      | .inl r => addElem [] (.range r)
      | .inr es => addMany [] es
    else addElem [] (.version v)
  | .range r => addElem [] (.range r)

/-- A placeholder element for out-of-range indexing (never reached by the
probes of a bisection over valid indices). -/
def dummyElem : VElem := .version ⟨"", [], []⟩

/-- `bisectLoop` with a fallible probe, for `VersionList.__contains__` whose
probe coerces a stored element to a VersionList (fuel as in `bisectLoop`). -/
def bisectLoopM (ltp : Nat → Except VErr Bool) :
    Nat → Nat → Nat → Except VErr Nat
  | 0, lo, _ => return lo
  | fuel + 1, lo, hi => do
    if lo < hi then
      let mid := (lo + hi) / 2
      if ← ltp mid then bisectLoopM ltp fuel (mid + 1) hi
      else bisectLoopM ltp fuel lo mid
    else return lo

/-- `bisect_left(self, other)` as `VersionList.__contains__` performs it: the
probe compares `self[mid]`, coerced to a singleton VersionList, with the
whole `other` list. -/
def bisectContains (self other : List VElem) : Except VErr Nat :=
  bisectLoopM
    (fun m => do
      let cl ← coerceL (self.getD m dummyElem)
      return pyListLt cl other)
    self.length 0 self.length

/-- `VersionList.__contains__` (`other in self`): for each member of `other`,
check containment against `self[0]` when the (list-coerced) bisection lands
at 0, and against the tail `self[i-1:]` otherwise. -/
def listContains (self other : List VElem) : Except VErr Bool := do
  if self.isEmpty then return false
  other.allM (fun version => do
    let i ← bisectContains self other
    if i = 0 then
      return elemContains (self.headD dummyElem) version
    else
      return (self.drop (i - 1)).any (fun v => elemContains v version))

/-- `VersionList.satisfies`. -/
def listSatisfies (self other : List VElem) (strict : Bool) :
    Except VErr Bool := do
  if other.isEmpty || self.isEmpty then return false
  else if strict then listContains other self
  else return listSatisfiesLoop (self.length + other.length) self other

/-! ### Version-level order lemmas -/

theorem vEq_iff {a b : VersionT} : vEq a b = true ↔ a.version = b.version := by
  simp [vEq]

theorem vContains_iff {a b : VersionT} :
    vContains a b = true ↔ a.version <+: b.version := by
  simp [vContains, List.isPrefixOf_iff_prefix]

theorem vSatisfies_iff {a b : VersionT} :
    vSatisfies a b = true ↔ b.version <+: a.version := by
  simp [vSatisfies, List.isPrefixOf_iff_prefix]

theorem segsLt_nil_right (x : List Seg) : segsLt x [] = false := by
  cases x with
  | nil => simp [segsLt]
  | cons a xs => simp [segsLt, segsLtAux]

theorem segsLe_of_prefix {x y : List Seg} (h : x <+: y) :
    x = y ∨ segsLt x y = true := by
  by_cases he : x = y
  · exact Or.inl he
  · exact Or.inr ( segsLt_of_prefix h he)

/-- The claim-side "minimum" relation on optional starts: `None` is the
bottom. -/
def startLe : Option VersionT → Option VersionT → Prop
  | none, _ => True
  | some _, none => False
  | some a, some b => a.version = b.version ∨ segsLt a.version b.version = true

/-- The claim-side "maximum" relation on optional ends: `None` is the top. -/
def endGe : Option VersionT → Option VersionT → Prop
  | none, _ => True
  | some _, none => False
  | some a, some b => a.version = b.version ∨ segsLt b.version a.version = true

/-! ### Claim C5: endpoint ordering at equal values -/

/-- C5 counterexample: on the Right side, with equal values and different
inclusive flags, the code makes the endpoint that includes its value the
lesser one (`epLt` returns `s.includes_endpoint`), not the greater one the
claim describes. -/
theorem endpoint_include_order_cex :
    epLt ⟨some ⟨"2", [.num 2], [""]⟩, .right, true⟩
        ⟨some ⟨"2", [.num 2], [""]⟩, .right, false⟩ = true ∧
    epLt ⟨some ⟨"2", [.num 2], [""]⟩, .right, false⟩
        ⟨some ⟨"2", [.num 2], [""]⟩, .right, true⟩ = false := by
  constructor <;> decide

/-- C5 amended: for two endpoints on the same side with equal (possibly equal
only as segment tuples) values and different inclusive flags, the strict
endpoint order is side-independent: the endpoint that includes its value is
the lesser of the two on both the Left and the Right side. -/
theorem endpoint_include_order (v w : VersionT) (loc : Loc) (b : Bool)
    (h : vEq v w = true) :
    epLt ⟨some v, loc, b⟩ ⟨some w, loc, !b⟩ = b := by
  unfold epLt
  have hq : optVEq (some v) (some w) = true := by simpa [optVEq] using h
  rw [if_pos hq]
  simp

/-- Witness for `endpoint_include_order` at the value 2 on the Right side. -/
theorem endpoint_include_order_witness :
    epLt ⟨some ⟨"2", [.num 2], [""]⟩, .right, true⟩
        ⟨some ⟨"2", [.num 2], [""]⟩, .right, !true⟩ = true :=
  endpoint_include_order ⟨"2", [.num 2], [""]⟩ ⟨"2", [.num 2], [""]⟩
    .right true (by decide)

/-! ### Claim C7: character validation in the Version constructor -/

/-- C7 counterexample: `"1&2"` contains `&`, a character outside
`[A-Za-z0-9._*-]`, at a non-initial position, yet the constructor accepts
it (the anchored `re.match` examines only the first character). -/
theorem version_charset_cex :
    mkVersion "1&2" = .ok ⟨"1&2", [.num 1, .num 2], ["&", ""]⟩ ∧
    validChar '&' = false := by
  constructor <;> decide

/-- C7 amended: the Version constructor raises exactly for the empty string
and for strings whose first character is outside `[A-Za-z0-9._*-]`; every
string whose first character is in the set is accepted, characters after the
first never being examined. -/
theorem version_charset_first_only :
    (mkVersion (String.mk []) = .error .badChars) ∧
    (∀ (c : Char) (cs : List Char),
      (mkVersion (String.mk (c :: cs))).isOk = validChar c) ∧
    (∀ (c : Char) (cs : List Char), validChar c = false →
      mkVersion (String.mk (c :: cs)) = .error .badChars) := by
  refine ⟨by decide, ?_, ?_⟩
  · intro c cs
    by_cases h : validChar c = true <;>
      simp [mkVersion, h, Except.isOk, Except.toBool]
  · intro c cs h
    simp [mkVersion, h]

/-- Witness for `version_charset_first_only`: the last conjunct applied at
the string `"!bad"`. -/
theorem version_charset_first_only_witness :
    mkVersion (String.mk ('!' :: "bad".data)) = .error .badChars :=
  version_charset_first_only.2.2 '!' "bad".data (by decide)

/-! ### Claim C6: stars in ranges -/

/-- C6 counterexample: parsing a string with a starred version as one
endpoint of a non-degenerate range does not raise: `ver("1.2.*:1.5")`
returns the plain range whose left endpoint is `Version("1.2.*")`
(the string parser builds ranges without consulting
`check_for_star_components`). -/
theorem star_in_inequality_cex :
    verS "1.2.*:1.5" = .ok (.r ⟨some ⟨"1.2.*", [.num 1, .num 2], [".", ".*"]⟩,
      some ⟨"1.5", [.num 1, .num 5], [".", ""]⟩, true, true⟩) := by
  decide

/-- C6 amended: parsing a lone starred version succeeds and yields the
half-open range printed `"1.2:!1.3"`; `check_for_star_components` raises the
star-in-inequality error for a starred version at one endpoint of a
non-degenerate range, but the string parser builds `:`-ranges directly and
accepts such endpoints as ordinary versions. -/
theorem star_parsing_amended :
    (verS "1.2.*" = .ok (.r ⟨some ⟨"1.2", [.num 1, .num 2], [".", ""]⟩,
      some ⟨"1.3", [.num 1, .num 3], [".", ""]⟩, true, false⟩)) ∧
    (rangeStr ⟨some ⟨"1.2", [.num 1, .num 2], [".", ""]⟩,
      some ⟨"1.3", [.num 1, .num 3], [".", ""]⟩, true, false⟩ =
      .ok "1.2:!1.3") ∧
    (check_for_star_components (some ⟨"1.2.*", [.num 1, .num 2], [".", ".*"]⟩)
      (some ⟨"1.5", [.num 1, .num 5], [".", ""]⟩) true true =
      .error .starIneq) ∧
    ((verS "1.2.*:1.5").isOk = true) := by
  refine ⟨by decide, by decide, by decide, by decide⟩

/-! ### Order-chain helpers on segment sequences -/

/-- Non-strict order on segment sequences: equality or the strict order. -/
def sLeL (x y : List Seg) : Prop := x = y ∨ segsLt x y = true

theorem sLeL_refl (x : List Seg) : sLeL x x := Or.inl rfl

theorem sLeL_trans {x y z : List Seg} (h1 : sLeL x y) (h2 : sLeL y z) :
    sLeL x z := by
  rcases h1 with h1 | h1
  · rw [h1]; exact h2
  · rcases h2 with h2 | h2
    · rw [← h2]; exact Or.inr h1
    · exact Or.inr (segsLt_trans h1 h2)

theorem segsLt_of_lt_of_le {x y z : List Seg} (h1 : segsLt x y = true)
    (h2 : sLeL y z) : segsLt x z = true := by
  rcases h2 with h2 | h2
  · rw [← h2]; exact h1
  · exact segsLt_trans h1 h2

theorem segsLt_of_le_of_lt {x y z : List Seg} (h1 : sLeL x y)
    (h2 : segsLt y z = true) : segsLt x z = true := by
  rcases h1 with h1 | h1
  · rw [h1]; exact h2
  · exact segsLt_trans h1 h2

theorem sLeL_of_not_lt {x y : List Seg} (h : segsLt y x = false) :
    sLeL x y := by
  by_cases he : x = y
  · exact Or.inl he
  · rcases segsLt_total he with h1 | h1
    · exact Or.inr h1
    · rw [h1] at h; exact absurd h (by simp)

theorem sLeL_nil_right {x : List Seg} (h : sLeL x []) : x = [] := by
  rcases h with h | h
  · exact h
  · rw [segsLt_nil_right] at h; exact absurd h (by simp)

theorem sLeL_of_prefix' {x y : List Seg} (h : x <+: y) : sLeL x y :=
  segsLe_of_prefix h

/-- `end < start` never holds between a range's own endpoints when both are
truthy — the check `VersionRange.__init__` enforces. -/
def rangeValidB (r : VRange) : Prop :=
  ∀ a b, r.start = some a → r.«end» = some b →
    a.version ≠ [] → b.version ≠ [] → vLt b a = false

theorem rangeValidB_of_mk {start «end» : Option VersionT} {il ir : Bool}
    {r : VRange} (h : mkVersionRange start «end» il ir = .ok r) :
    rangeValidB r := by
  unfold mkVersionRange at h
  split at h
  · exact absurd h (by simp)
  · split at h
    · exact absurd h (by simp)
    · split at h
      · exact absurd h (by simp)
      · cases h
        intro a b ha hb hna hnb
        dsimp only at ha hb
        subst ha
        subst hb
        rename_i h1 h2 hguard
        by_cases hlt : vLt b a = true
        · exfalso
          apply hguard
          simp [optTruthy, List.isEmpty_iff, hna, hnb, hlt]
        · exact Bool.eq_false_iff.mpr hlt

theorem unionStart_cases (r s : VRange) :
    (unionStart r s = r.start ∨ unionStart r s = s.start) ∧
    startLe (unionStart r s) r.start ∧ startLe (unionStart r s) s.start := by
  unfold unionStart
  cases hrs : r.start with
  | none => simp [startLe]
  | some ss =>
    cases hss : s.start with
    | none => simp [startLe]
    | some os =>
      simp only [Option.isNone_some, Bool.or_self, Bool.false_or]
      by_cases hc : (vContains os ss || vLt os ss) = true
      · rw [if_pos hc]
        refine ⟨Or.inr rfl, ?_, Or.inl rfl⟩
        rcases Bool.or_eq_true_iff.mp hc with h | h
        · exact sLeL_of_prefix' (vContains_iff.mp h)
        · exact Or.inr h
      · rw [if_neg hc]
        refine ⟨Or.inl rfl, Or.inl rfl, ?_⟩
        have : vLt os ss = false := by
          rcases Bool.or_eq_true_iff.mpr (Or.inr (rfl : true = true)) with _
          by_cases h : vLt os ss = true
          · exact absurd (Bool.or_eq_true_iff.mpr (Or.inr h)) hc
          · exact Bool.eq_false_iff.mpr h
        exact sLeL_of_not_lt this

theorem unionEnd_cases (r s : VRange) :
    (unionEnd r s = r.«end» ∨ unionEnd r s = s.«end») ∧
    (match r.«end», s.«end» with
     | some se, some oe =>
       if se.version <+: oe.version ∨ oe.version <+: se.version then
         ∃ w, unionEnd r s = some w ∧ w.version <+: se.version ∧
           w.version <+: oe.version
       else endGe (unionEnd r s) r.«end» ∧ endGe (unionEnd r s) s.«end»
     | _, _ => unionEnd r s = none) := by
  unfold unionEnd
  cases hre : r.«end» with
  | none => simp
  | some se =>
    cases hse : s.«end» with
    | none => simp
    | some oe =>
      simp only [Option.isNone_some, Bool.or_self, Bool.false_or]
      by_cases h1 : vContains se oe = true
      · have hpre : se.version <+: oe.version := vContains_iff.mp h1
        rw [h1]
        simp only [Bool.not_true, Bool.false_and, Bool.false_eq_true, if_false]
        refine ⟨by simp, ?_⟩
        rw [if_pos (Or.inl hpre)]
        exact ⟨se, rfl, List.prefix_refl _, hpre⟩
      · have hne : se.version ≠ oe.version := by
          intro he
          exact h1 (vContains_iff.mpr (he ▸ List.prefix_refl _))
        have h1f : vContains se oe = false := Bool.eq_false_iff.mpr h1
        rw [h1f]
        simp only [Bool.not_false, Bool.true_and]
        by_cases h2 : vContains oe se = true
        · have hpre : oe.version <+: se.version := vContains_iff.mp h2
          rw [h2]
          simp only [Bool.true_or, if_true]
          refine ⟨by simp, ?_⟩
          rw [if_pos (Or.inr hpre)]
          exact ⟨oe, rfl, hpre, List.prefix_refl _⟩
        · have hnp : ¬(se.version <+: oe.version ∨ oe.version <+: se.version) := by
            rintro (hp | hp)
            · exact h1 (vContains_iff.mpr hp)
            · exact h2 (vContains_iff.mpr hp)
          have h2f : vContains oe se = false := Bool.eq_false_iff.mpr h2
          rw [h2f]
          simp only [Bool.false_or]
          have hgt : vGt oe se = !vLt oe se := by
            unfold vGt
            have : vEq oe se = false := by
              simp [vEq]
              intro he
              exact hne he.symm
            rw [this]
            simp
          rw [hgt]
          by_cases hlt : vLt oe se = true
          · rw [hlt]
            simp only [Bool.not_true, Bool.false_eq_true, if_false]
            refine ⟨by simp, ?_⟩
            rw [if_neg hnp]
            exact ⟨Or.inl rfl, Or.inr hlt⟩
          · have hltf : vLt oe se = false := Bool.eq_false_iff.mpr hlt
            rw [hltf]
            simp only [Bool.not_false, if_true]
            refine ⟨by simp, ?_⟩
            rw [if_neg hnp]
            have hse_lt : segsLt se.version oe.version = true := by
              rcases segsLt_total hne with h | h
              · exact h
              · exact absurd h (by rw [show segsLt oe.version se.version = vLt oe se from rfl, hltf]; simp)
            exact ⟨Or.inr hse_lt, Or.inl rfl⟩

theorem rangeUnionMerged_ok {r s : VRange} (hr : rangeValidB r)
    (hs : rangeValidB s) :
    rangeUnionMerged r s = .ok ⟨unionStart r s, unionEnd r s, true, true⟩ := by
  unfold rangeUnionMerged mkVersionRange
  have hguard : (optTruthy (unionStart r s) && optTruthy (unionEnd r s) &&
      (match unionStart r s, unionEnd r s with
       | some s', some e => vLt e s'
       | _, _ => false)) = false := by
    by_cases hg : (optTruthy (unionStart r s) && optTruthy (unionEnd r s) &&
      (match unionStart r s, unionEnd r s with
       | some s', some e => vLt e s'
       | _, _ => false)) = true
    · exfalso
      cases hus : unionStart r s with
      | none => rw [hus] at hg; simp [optTruthy] at hg
      | some a =>
        cases hue : unionEnd r s with
        | none => rw [hue] at hg; simp [optTruthy] at hg
        | some w =>
          rw [hus, hue] at hg
          simp only [optTruthy, Bool.and_eq_true] at hg
          obtain ⟨⟨hta, htw⟩, hlt⟩ := hg
          have hna : a.version ≠ [] := by
            simpa [List.isEmpty_iff] using hta
          have hnw : w.version ≠ [] := by
            simpa [List.isEmpty_iff] using htw
          obtain ⟨husel, hle_r, hle_s⟩ := unionStart_cases r s
          rw [hus] at hle_r hle_s
          cases hrs : r.start with
          | none => rw [hrs] at hle_r; exact hle_r.elim
          | some ss =>
            cases hss : s.start with
            | none => rw [hss] at hle_s; exact hle_s.elim
            | some os =>
              rw [hrs] at hle_r
              rw [hss] at hle_s
              have hss_ne : ss.version ≠ [] := by
                intro he
                exact hna (sLeL_nil_right (he ▸ hle_r))
              have hos_ne : os.version ≠ [] := by
                intro he
                exact hna (sLeL_nil_right (he ▸ hle_s))
              obtain ⟨huesel, _⟩ := unionEnd_cases r s
              rw [hue] at huesel
              rcases huesel with hwe | hwe
              · have hv := hr ss w hrs hwe.symm hss_ne hnw
                have hle : sLeL ss.version w.version := sLeL_of_not_lt hv
                have : segsLt w.version w.version = true :=
                  segsLt_of_lt_of_le (segsLt_of_lt_of_le hlt hle_r) hle
                rw [segsLt_irrefl] at this
                exact absurd this (by simp)
              · have hv := hs os w hss hwe.symm hos_ne hnw
                have hle : sLeL os.version w.version := sLeL_of_not_lt hv
                have : segsLt w.version w.version = true :=
                  segsLt_of_lt_of_le (segsLt_of_lt_of_le hlt hle_s) hle
                rw [segsLt_irrefl] at this
                exact absurd this (by simp)
    · exact Bool.eq_false_iff.mpr hg
  rw [hguard]
  simp

/-! ### Comparison keys

A Version used as a range endpoint denotes a whole family: as an upper
bound, `4.7` reaches past every `4.7.x`.  Each endpoint therefore maps to a
key: the segment sequence, marked `top` for a right endpoint (the marker
compares above every segment), with `ninf`/`pinf` for missing endpoints.
Overlap of two ranges is exactly overlap of their key intervals. -/

/-- Lexicographic comparison of marked segment sequences: at the end of one
sequence its marker (when set) beats any remaining segment. -/
def keyLtSegs : List Seg → Bool → List Seg → Bool → Bool
  | [], fx, [], fy => !fx && fy
  | [], fx, _ :: _, _ => !fx
  | _ :: _, _, [], fy => fy
  | x :: xs, fx, y :: ys, fy => if x = y then keyLtSegs xs fx ys fy else segLt x y

/-- Endpoint keys: bottom, a marked segment sequence, top. -/
inductive KeyE where
  | ninf : KeyE
  | k (segs : List Seg) (top : Bool) : KeyE
  | pinf : KeyE
deriving DecidableEq, Repr

/-- Strict order on endpoint keys. -/
def keyLt : KeyE → KeyE → Bool
  | .ninf, .ninf => false
  | .ninf, _ => true
  | _, .ninf => false
  | .pinf, _ => false
  | _, .pinf => true
  | .k xs fx, .k ys fy => keyLtSegs xs fx ys fy

/-- Non-strict order on endpoint keys, via totality of the strict one. -/
def keyLe (a b : KeyE) : Prop := keyLt b a = false

theorem segsLtAux_self (x : List Seg) : segsLtAux x x = false := by
  induction x with
  | nil => simp [segsLtAux]
  | cons a xs ih => simpa [segsLtAux] using ih

theorem segsLt_eq_aux (x y : List Seg) : segsLt x y = segsLtAux x y := by
  by_cases h : x = y
  · rw [h, segsLtAux_self]; simp [segsLt]
  · simp [segsLt, h]

theorem segsLtAux_ne {x y : List Seg} (h : segsLtAux x y = true) : x ≠ y := by
  intro he
  rw [he, segsLtAux_self] at h
  exact absurd h (by simp)

theorem keyLtSegs_self (x : List Seg) (f : Bool) :
    keyLtSegs x f x f = false := by
  induction x with
  | nil => simp [keyLtSegs]
  | cons a xs ih => simpa [keyLtSegs] using ih

theorem keyLtSegs_asymm : ∀ {x : List Seg} {fx : Bool} {y : List Seg}
    {fy : Bool}, keyLtSegs x fx y fy = true → keyLtSegs y fy x fx = false
  | [], fx, [], fy, h => by
    simp [keyLtSegs] at h ⊢
    intro hc
    exact h.1
  | [], fx, _ :: _, fy, h => by
    simp [keyLtSegs] at h ⊢
    exact h
  | _ :: _, fx, [], fy, h => by
    simp [keyLtSegs] at h ⊢
    exact h
  | a :: xs, fx, b :: ys, fy, h => by
    by_cases hab : a = b
    · subst hab
      simp only [keyLtSegs, if_pos rfl] at h ⊢
      exact keyLtSegs_asymm h
    · have hba : b ≠ a := fun he => hab he.symm
      simp only [keyLtSegs, if_neg hab, if_neg hba] at h ⊢
      exact segLt_asymm h

theorem keyLtSegs_total : ∀ {x : List Seg} {fx : Bool} {y : List Seg}
    {fy : Bool}, keyLtSegs x fx y fy = false → keyLtSegs y fy x fx = false →
    x = y ∧ fx = fy
  | [], fx, [], fy, h1, h2 => by
    simp [keyLtSegs] at h1 h2
    cases fx <;> cases fy <;> simp_all
  | [], fx, _ :: _, fy, h1, h2 => by
    simp [keyLtSegs] at h1 h2
    rw [h1] at h2
    exact absurd h2 (by simp)
  | _ :: _, fx, [], fy, h1, h2 => by
    simp [keyLtSegs] at h1 h2
    rw [h2] at h1
    exact absurd h1 (by simp)
  | a :: xs, fx, b :: ys, fy, h1, h2 => by
    by_cases hab : a = b
    · subst hab
      simp only [keyLtSegs, if_pos rfl] at h1 h2
      obtain ⟨he, hf⟩ := keyLtSegs_total h1 h2
      exact ⟨by rw [he], hf⟩
    · have hba : b ≠ a := fun he => hab he.symm
      simp only [keyLtSegs, if_neg hab, if_neg hba] at h1 h2
      rcases segLt_total hab with h | h
      · rw [h] at h1; exact absurd h1 (by simp)
      · rw [h] at h2; exact absurd h2 (by simp)

theorem keyLtSegs_trans : ∀ {x : List Seg} {fx : Bool} {y : List Seg}
    {fy : Bool} {z : List Seg} {fz : Bool},
    keyLtSegs x fx y fy = true → keyLtSegs y fy z fz = true →
    keyLtSegs x fx z fz = true
  | [], fx, [], fy, z, fz, h1, h2 => by
    simp only [keyLtSegs, Bool.and_eq_true, Bool.not_eq_true'] at h1
    obtain ⟨hfx, hfy⟩ := h1
    subst hfx; subst hfy
    cases z with
    | nil => simp [keyLtSegs] at h2
    | cons c zs => simp [keyLtSegs] at h2
  | [], fx, b :: ys, fy, z, fz, h1, h2 => by
    simp only [keyLtSegs, Bool.not_eq_true'] at h1
    subst h1
    cases z with
    | nil =>
      simp only [keyLtSegs] at h2
      simp [keyLtSegs, h2]
    | cons c zs => simp [keyLtSegs]
  | a :: xs, fx, [], fy, z, fz, h1, h2 => by
    simp only [keyLtSegs] at h1
    subst h1
    cases z with
    | nil => simp [keyLtSegs] at h2
    | cons c zs => simp [keyLtSegs] at h2
  | a :: xs, fx, b :: ys, fy, [], fz, h1, h2 => by
    simp only [keyLtSegs] at h2 ⊢
    exact h2
  | a :: xs, fx, b :: ys, fy, c :: zs, fz, h1, h2 => by
    by_cases hab : a = b <;> by_cases hbc : b = c
    · subst hab; subst hbc
      simp only [keyLtSegs, if_pos rfl] at h1 h2 ⊢
      exact keyLtSegs_trans h1 h2
    · subst hab
      simp only [keyLtSegs, if_pos rfl, if_neg hbc] at h1 h2 ⊢
      exact h2
    · subst hbc
      simp only [keyLtSegs, if_neg hab] at h1 h2 ⊢
      exact h1
    · simp only [keyLtSegs, if_neg hab, if_neg hbc] at h1 h2
      by_cases hac : a = c
      · subst hac
        have := segLt_asymm h1
        rw [this] at h2
        exact absurd h2 (by simp)
      · simp only [keyLtSegs, if_neg hac]
        exact segLt_trans h1 h2

theorem keyLt_irrefl (a : KeyE) : keyLt a a = false := by
  cases a with
  | ninf => rfl
  | pinf => rfl
  | k xs fx => simpa [keyLt] using keyLtSegs_self xs fx

theorem keyLt_asymm {a b : KeyE} (h : keyLt a b = true) :
    keyLt b a = false := by
  cases a <;> cases b <;> simp [keyLt] at h ⊢
  exact keyLtSegs_asymm h

theorem keyLt_total {a b : KeyE} (h1 : keyLt a b = false)
    (h2 : keyLt b a = false) : a = b := by
  cases a <;> cases b <;> simp [keyLt] at h1 h2 ⊢
  exact keyLtSegs_total h1 h2

theorem keyLt_trans {a b c : KeyE} (h1 : keyLt a b = true)
    (h2 : keyLt b c = true) : keyLt a c = true := by
  cases a <;> cases b <;> cases c <;> simp [keyLt] at h1 h2 ⊢
  exact keyLtSegs_trans h1 h2

theorem keyLe_refl (a : KeyE) : keyLe a a := keyLt_irrefl a

theorem keyLe_of_lt {a b : KeyE} (h : keyLt a b = true) : keyLe a b :=
  keyLt_asymm h

theorem keyLe_trans {a b c : KeyE} (h1 : keyLe a b) (h2 : keyLe b c) :
    keyLe a c := by
  have h1Q : keyLt b a = false := h1
  have h2Q : keyLt c b = false := h2
  show keyLt c a = false
  by_cases hca : keyLt c a = true
  · by_cases hbc : keyLt b c = true
    · rw [keyLt_trans hbc hca] at h1Q
      exact absurd h1Q (by simp)
    · have hbce : b = c := keyLt_total (by simpa using hbc) h2Q
      subst hbce
      rw [hca] at h1Q
      exact absurd h1Q (by simp)
  · simpa using hca

theorem keyLt_of_lt_of_le {a b c : KeyE} (h1 : keyLt a b = true)
    (h2 : keyLe b c) : keyLt a c = true := by
  have h2Q : keyLt c b = false := h2
  by_cases h : keyLt a c = true
  · exact h
  · by_cases hca : keyLt c a = true
    · rw [keyLt_trans hca h1] at h2Q
      exact absurd h2Q (by simp)
    · have hac : a = c := keyLt_total (by simpa using h) (by simpa using hca)
      subst hac
      rw [h1] at h2Q
      exact absurd h2Q (by simp)

theorem keyLt_of_le_of_lt {a b c : KeyE} (h1 : keyLe a b)
    (h2 : keyLt b c = true) : keyLt a c = true := by
  have h1Q : keyLt b a = false := h1
  by_cases h : keyLt a c = true
  · exact h
  · by_cases hca : keyLt c a = true
    · rw [keyLt_trans h2 hca] at h1Q
      exact absurd h1Q (by simp)
    · have hac : a = c := keyLt_total (by simpa using h) (by simpa using hca)
      subst hac
      rw [h2] at h1Q
      exact absurd h1Q (by simp)

theorem keyLt_to_ninf (x : KeyE) : keyLt x .ninf = false := by
  cases x <;> rfl

theorem keyLt_pinf_any (x : KeyE) : keyLt .pinf x = false := by
  cases x <;> rfl

theorem keyLe_ninf_any (x : KeyE) : keyLe KeyE.ninf x := keyLt_to_ninf x

theorem keyLe_any_pinf (x : KeyE) : keyLe x KeyE.pinf := keyLt_pinf_any x

/-- With both markers clear, the key comparison is the plain `__lt__` walk. -/
theorem kff_eq : ∀ (x y : List Seg), keyLtSegs x false y false = segsLtAux x y
  | [], [] => by simp [keyLtSegs, segsLtAux]
  | [], _ :: _ => by simp [keyLtSegs, segsLtAux]
  | _ :: _, [] => by simp [keyLtSegs, segsLtAux]
  | a :: xs, b :: ys => by
    by_cases hab : a = b
    · subst hab
      simp only [keyLtSegs, segsLtAux, if_pos rfl]
      exact kff_eq xs ys
    · simp [keyLtSegs, segsLtAux, hab]

/-- A marked key strictly below an unmarked one forces a strict value
comparison: the marker itself never places a sequence below. -/
theorem ktf_imp : ∀ {x y : List Seg}, keyLtSegs x true y false = true →
    segsLtAux x y = true
  | [], [], h => by simp [keyLtSegs] at h
  | [], _ :: _, h => by simp [keyLtSegs] at h
  | _ :: _, [], h => by simp [keyLtSegs] at h
  | a :: xs, b :: ys, h => by
    by_cases hab : a = b
    · subst hab
      simp only [keyLtSegs, segsLtAux, if_pos rfl] at h ⊢
      exact ktf_imp h
    · simp only [keyLtSegs, segsLtAux, if_neg hab] at h ⊢
      exact h

/-- A prefix reaches at least as far up as its extension: the marked key of a
prefix is never below the marked key of the longer sequence. -/
theorem ktt_prefix : ∀ {w x : List Seg}, w <+: x →
    keyLtSegs w true x true = false
  | [], [], _ => by simp [keyLtSegs]
  | [], _ :: _, _ => by simp [keyLtSegs]
  | a :: ws, x, h => by
    obtain ⟨t, ht⟩ := h
    cases x with
    | nil => exact absurd ht (by simp)
    | cons b xs =>
      have hab : a = b := by
        have := congrArg (fun l => l.head?) ht
        simpa using this
      subst hab
      have hws : ws <+: xs := by
        have := congrArg (fun l => l.tail) ht
        simp at this
        exact ⟨t, this⟩
      simp only [keyLtSegs, if_pos rfl]
      exact ktt_prefix hws

/-- Between prefix-unrelated sequences the markers never decide, so the
marked comparison coincides with the plain walk. -/
theorem ktt_eq_of_no_prefix : ∀ {x y : List Seg}, ¬(x <+: y) → ¬(y <+: x) →
    keyLtSegs x true y true = segsLtAux x y
  | [], y, h1, _ => absurd List.nil_prefix h1
  | _ :: _, [], _, h2 => absurd List.nil_prefix h2
  | a :: xs, b :: ys, h1, h2 => by
    by_cases hab : a = b
    · subst hab
      simp only [keyLtSegs, segsLtAux, if_pos rfl]
      exact ktt_eq_of_no_prefix
        (fun hp => h1 (List.cons_prefix_cons.mpr ⟨rfl, hp⟩))
        (fun hp => h2 (List.cons_prefix_cons.mpr ⟨rfl, hp⟩))
    · simp [keyLtSegs, segsLtAux, hab]

/-- Non-separation of a marked upper key from an unmarked lower key is
exactly the first overlap clause of `VersionRange.overlaps`: value order or
prefix containment either way. -/
theorem clause_iff : ∀ (x y : List Seg),
    keyLtSegs y true x false = false ↔
      (x = y ∨ segsLtAux x y = true ∨ x <+: y ∨ y <+: x)
  | [], [] => by simp [keyLtSegs]
  | [], b :: ys => by
    simp only [keyLtSegs]
    simp [List.nil_prefix]
  | a :: xs, [] => by
    simp only [keyLtSegs]
    simp [List.nil_prefix]
  | a :: xs, b :: ys => by
    by_cases hab : a = b
    · subst hab
      simp only [keyLtSegs, segsLtAux, if_pos rfl, List.cons_prefix_cons,
        List.cons.injEq, true_and]
      exact clause_iff xs ys
    · have hba : b ≠ a := fun he => hab he.symm
      simp only [keyLtSegs, segsLtAux, if_neg hab, if_neg hba,
        List.cons_prefix_cons]
      constructor
      · intro h
        right; left
        rcases segLt_total hab with h1 | h1
        · exact h1
        · rw [h1] at h; exact absurd h (by simp)
      · rintro (he | hlt | ⟨he, _⟩ | ⟨he, _⟩)
        · exact absurd (by injection he) hab
        · exact segLt_asymm hlt
        · exact absurd he hab
        · exact absurd he hba

/-- The overlap clause of `VersionRange.overlaps` on concrete endpoints, in
key form. -/
theorem ov_clause_iff (a b : VersionT) :
    (vLe a b || vContains a b || vContains b a) = true ↔
      keyLtSegs b.version true a.version false = false := by
  rw [clause_iff]
  simp only [Bool.or_eq_true, vLe, vEq_iff, vContains_iff, vLt,
    segsLt_eq_aux]
  tauto

/-- Key of an optional left endpooint: `None` is the bottom. -/
def lowKeyO : Option VersionT → KeyE
  | none => .ninf
  | some v => .k v.version false

/-- Key of an optional right endpoint: `None` is the top, and a concrete
Version carries the marker — as an upper bound it reaches past every
extension of its segments. -/
def highKeyO : Option VersionT → KeyE
  | none => .pinf
  | some v => .k v.version true

/-- Key of a range's left endpoint. -/
def lowKeyR (r : VRange) : KeyE := lowKeyO r.start

/-- Key of a range's right endpoint. -/
def highKeyR (r : VRange) : KeyE := highKeyO r.«end»

/-- Every list element compares through its coerced range. -/
def toR : VElem → VRange
  | .version v => coerceR v
  | .range r => r

/-- Key of a list element's left end. -/
def lowKey (e : VElem) : KeyE := lowKeyR (toR e)

/-- Key of a list element's right end. -/
def highKey (e : VElem) : KeyE := highKeyR (toR e)

/-- `VersionRange.overlaps` is exactly overlap of the two key intervals. -/
theorem rangeOverlaps_iff_keys (r s : VRange) :
    rangeOverlaps r s = true ↔
      (keyLt (highKeyR s) (lowKeyR r) = false ∧
       keyLt (highKeyR r) (lowKeyR s) = false) := by
  unfold rangeOverlaps lowKeyR highKeyR
  rw [Bool.and_eq_true]
  constructor
  · rintro ⟨h1, h2⟩
    constructor
    · cases hrs : r.start with
      | none => simp [lowKeyO, keyLt_to_ninf]
      | some ss =>
        cases hse : s.«end» with
        | none => simp [highKeyO, lowKeyO, keyLt]
        | some oe =>
          rw [hrs, hse] at h1
          simp only [Option.isNone_some, Bool.false_or] at h1
          simp only [lowKeyO, highKeyO, keyLt]
          exact (ov_clause_iff ss oe).mp h1
    · cases hss : s.start with
      | none => simp [lowKeyO, keyLt_to_ninf]
      | some os =>
        cases hre : r.«end» with
        | none => simp [highKeyO, lowKeyO, keyLt]
        | some se =>
          rw [hss, hre] at h2
          simp only [Option.isNone_some, Bool.false_or] at h2
          simp only [lowKeyO, highKeyO, keyLt]
          have h2' : (vLe os se || vContains os se || vContains se os) = true := by
            rcases Bool.or_eq_true_iff.mp h2 with h | h
            · rcases Bool.or_eq_true_iff.mp h with h' | h'
              · exact Bool.or_eq_true_iff.mpr (Or.inl (Bool.or_eq_true_iff.mpr (Or.inl h')))
              · exact Bool.or_eq_true_iff.mpr (Or.inr h')
            · exact Bool.or_eq_true_iff.mpr (Or.inl (Bool.or_eq_true_iff.mpr (Or.inr h)))
          exact (ov_clause_iff os se).mp h2'
  · rintro ⟨h1, h2⟩
    constructor
    · cases hrs : r.start with
      | none => simp
      | some ss =>
        cases hse : s.«end» with
        | none => simp
        | some oe =>
          rw [hrs, hse] at h1
          simp only [lowKeyO, highKeyO, keyLt] at h1
          simp only [Option.isNone_some, Bool.false_or]
          exact (ov_clause_iff ss oe).mpr h1
    · cases hss : s.start with
      | none => simp
      | some os =>
        cases hre : r.«end» with
        | none => simp
        | some se =>
          rw [hss, hre] at h2
          simp only [lowKeyO, highKeyO, keyLt] at h2
          simp only [Option.isNone_some, Bool.false_or]
          have h2' := (ov_clause_iff os se).mpr h2
          rcases Bool.or_eq_true_iff.mp h2' with h | h
          · rcases Bool.or_eq_true_iff.mp h with h' | h'
            · exact Bool.or_eq_true_iff.mpr (Or.inl (Bool.or_eq_true_iff.mpr (Or.inl h')))
            · exact Bool.or_eq_true_iff.mpr (Or.inr h')
          · exact Bool.or_eq_true_iff.mpr (Or.inl (Bool.or_eq_true_iff.mpr (Or.inr h)))

/-- The endpoint sanity a range obtains from `__init__` when no endpoint has
an empty segment tuple: `end < start` never holds, and the empty tuple is
excluded so the truthiness guard cannot have been skipped. -/
def RangeOK (r : VRange) : Prop :=
  rangeValidB r ∧ (∀ a, r.start = some a → a.version ≠ []) ∧
    (∀ b, r.«end» = some b → b.version ≠ [])

/-- The element-level restriction of the amended invariant: no endpoint
Version with an empty segment tuple. -/
def ElemOK : VElem → Prop
  | .version v => v.version ≠ []
  | .range r => RangeOK r

theorem elemOK_toR {e : VElem} (h : ElemOK e) : RangeOK (toR e) := by
  cases e with
  | version v =>
    refine ⟨?_, ?_, ?_⟩
    · intro a b ha hb _ _
      simp only [toR, coerceR] at ha hb
      cases ha; cases hb
      simp [vLt, segsLt_irrefl]
    · intro a ha
      simp only [toR, coerceR] at ha
      cases ha
      exact h
    · intro b hb
      simp only [toR, coerceR] at hb
      cases hb
      exact h
  | range r => exact h

/-- Key well-formedness: the left key of a sane range never exceeds its
right key. -/
theorem rangeOK_wf {r : VRange} (h : RangeOK r) :
    keyLe (lowKeyR r) (highKeyR r) := by
  obtain ⟨hv, hns, hne⟩ := h
  unfold lowKeyR highKeyR
  cases hrs : r.start with
  | none => exact keyLe_ninf_any _
  | some a =>
    cases hre : r.«end» with
    | none => exact keyLe_any_pinf _
    | some b =>
      show keyLt (highKeyO (some b)) (lowKeyO (some a)) = false
      simp only [lowKeyO, highKeyO, keyLt]
      by_cases hk : keyLtSegs b.version true a.version false = true
      · exfalso
        have haux := ktf_imp hk
        have := hv a b hrs hre (hns a hrs) (hne b hre)
        rw [show vLt b a = segsLt b.version a.version from rfl,
          segsLt_eq_aux, haux] at this
        exact absurd this (by simp)
      · simpa using hk

theorem elemOK_wf {e : VElem} (h : ElemOK e) :
    keyLe (lowKey e) (highKey e) := rangeOK_wf (elemOK_toR h)

/-- `Version.overlaps` agrees with `VersionRange.overlaps` on the coerced
degenerate ranges. -/
theorem vOverlaps_iff_coerce (a b : VersionT) :
    vOverlaps a b = true ↔ rangeOverlaps (coerceR a) (coerceR b) = true := by
  unfold vOverlaps rangeOverlaps coerceR
  simp only [Option.isNone_some, Bool.false_or, Bool.or_eq_true,
    Bool.and_eq_true]
  constructor
  · rintro (h | h)
    · exact ⟨Or.inr h, Or.inr h⟩
    · exact ⟨Or.inl (Or.inr h), Or.inl (Or.inr h)⟩
  · rintro ⟨h1, h2⟩
    rcases h1 with (hle | hc) | hc
    · rcases h2 with (hle2 | hc) | hc
      · rcases Bool.or_eq_true_iff.mp hle with he | hlt
        · right
          rw [vContains_iff, vEq_iff.mp he]
        · rcases Bool.or_eq_true_iff.mp hle2 with he2 | hlt2
          · left
            rw [vContains_iff, vEq_iff.mp he2]
          · exfalso
            rw [show vLt a b = segsLt a.version b.version from rfl] at hlt
            rw [show vLt b a = segsLt b.version a.version from rfl] at hlt2
            rw [segsLt_asymm hlt] at hlt2
            exact absurd hlt2 (by simp)
      · right; exact hc
      · left; exact hc
    · right; exact hc
    · left; exact hc

/-- Element comparison is range comparison of the coerced ranges. -/
theorem elemLt_toR (a b : VElem) : elemLt a b = rangeLt (toR a) (toR b) := by
  cases a with
  | version va =>
    cases b with
    | version vb =>
      show vLt va vb = rangeLt (coerceR va) (coerceR vb)
      by_cases hv : vEq va vb = true
      · have he : va.version = vb.version := vEq_iff.mp hv
        have hlt : vLt va vb = false := by
          rw [show vLt va vb = segsLt va.version vb.version from rfl, he,
            segsLt_irrefl]
        rw [hlt]
        simp [rangeLt, epLt, coerceR, lowEp, highEp, optVEq, hv]
      · have hv' : vEq va vb = false := Bool.eq_false_iff.mpr hv
        simp [rangeLt, epLt, coerceR, lowEp, highEp, optVEq, hv']
    | range rb => rfl
  | range ra =>
    cases b with
    | version vb => rfl
    | range rb => rfl

/-- Element overlap is overlap of the two key intervals. -/
theorem elemOverlaps_iff_keys (a b : VElem) :
    elemOverlaps a b = true ↔
      (keyLt (highKey b) (lowKey a) = false ∧
       keyLt (highKey a) (lowKey b) = false) := by
  cases a with
  | version va =>
    cases b with
    | version vb =>
      show vOverlaps va vb = true ↔ _
      rw [vOverlaps_iff_coerce]
      exact rangeOverlaps_iff_keys (coerceR va) (coerceR vb)
    | range rb => exact rangeOverlaps_iff_keys (coerceR va) rb
  | range ra =>
    cases b with
    | version vb => exact rangeOverlaps_iff_keys ra (coerceR vb)
    | range rb => exact rangeOverlaps_iff_keys ra rb

/-- Non-overlap means key separation on one side or the other. -/
theorem not_ov_cases {a b : VElem} (h : elemOverlaps a b = false) :
    keyLt (highKey b) (lowKey a) = true ∨
      keyLt (highKey a) (lowKey b) = true := by
  by_cases h1 : keyLt (highKey b) (lowKey a) = true
  · exact Or.inl h1
  · by_cases h2 : keyLt (highKey a) (lowKey b) = true
    · exact Or.inr h2
    · rw [(elemOverlaps_iff_keys a b).mpr
        ⟨by simpa using h1, by simpa using h2⟩] at h
      exact absurd h (by simp)

/-- Growing an element's key interval preserves overlap with anything. -/
theorem ov_grow {v w x : VElem} (hl : keyLe (lowKey w) (lowKey v))
    (hh : keyLe (highKey v) (highKey w))
    (h : elemOverlaps v x = true) : elemOverlaps w x = true := by
  rw [elemOverlaps_iff_keys] at h ⊢
  obtain ⟨h1, h2⟩ := h
  constructor
  · by_cases hk : keyLt (highKey x) (lowKey w) = true
    · rw [keyLt_of_lt_of_le hk hl] at h1
      exact absurd h1 (by simp)
    · simpa using hk
  · by_cases hk : keyLt (highKey w) (lowKey x) = true
    · rw [keyLt_of_le_of_lt hh hk] at h2
      exact absurd h2 (by simp)
    · simpa using hk

/-- Key separation forces the strict range order. -/
theorem rsep_lt {r s : VRange} (hr : RangeOK r) (hs : RangeOK s)
    (h : keyLt (highKeyR r) (lowKeyR s) = true) : rangeLt r s = true := by
  obtain ⟨hvr, hrns, hrne⟩ := hr
  obtain ⟨hvs, hsns, hsne⟩ := hs
  cases hre : r.«end» with
  | none =>
    rw [highKeyR, hre] at h
    rw [show highKeyO none = KeyE.pinf from rfl, keyLt_pinf_any] at h
    exact absurd h (by simp)
  | some re =>
    cases hss : s.start with
    | none =>
      rw [lowKeyR, hss] at h
      rw [show lowKeyO none = KeyE.ninf from rfl, keyLt_to_ninf] at h
      exact absurd h (by simp)
    | some sv =>
      rw [highKeyR, lowKeyR, hre, hss] at h
      simp only [highKeyO, lowKeyO, keyLt] at h
      have haux : segsLt re.version sv.version = true := by
        rw [segsLt_eq_aux]; exact ktf_imp h
      unfold rangeLt
      refine Bool.or_eq_true_iff.mpr (Or.inl ?_)
      unfold lowEp epLt
      rw [hss]
      cases hrs : r.start with
      | none => simp [optVEq]
      | some rs =>
        have hle : sLeL rs.version re.version :=
          sLeL_of_not_lt (hvr rs re hrs hre (hrns rs hrs) (hrne re hre))
        have hlt : segsLt rs.version sv.version = true :=
          segsLt_of_le_of_lt hle haux
        have hne : rs.version ≠ sv.version := by
          rw [segsLt_eq_aux] at hlt
          exact segsLtAux_ne hlt
        have hveq : optVEq (some rs) (some sv) = false := by
          simp [optVEq, vEq, hne]
        rw [hveq]
        simp only [Bool.false_eq_true, if_false]
        exact hlt

/-- Key separation also excludes the reversed strict range order: the sane
hypotheses rule out the empty-tuple endpoints that would make both strict
comparisons true at once. -/
theorem rsep_nlt {r s : VRange} (hr : RangeOK r) (hs : RangeOK s)
    (h : keyLt (highKeyR r) (lowKeyR s) = true) : rangeLt s r = false := by
  obtain ⟨hvr, hrns, hrne⟩ := hr
  obtain ⟨hvs, hsns, hsne⟩ := hs
  cases hre : r.«end» with
  | none =>
    rw [highKeyR, hre] at h
    rw [show highKeyO none = KeyE.pinf from rfl, keyLt_pinf_any] at h
    exact absurd h (by simp)
  | some re =>
    cases hss : s.start with
    | none =>
      rw [lowKeyR, hss] at h
      rw [show lowKeyO none = KeyE.ninf from rfl, keyLt_to_ninf] at h
      exact absurd h (by simp)
    | some sv =>
      rw [highKeyR, lowKeyR, hre, hss] at h
      simp only [highKeyO, lowKeyO, keyLt] at h
      have haux : segsLt re.version sv.version = true := by
        rw [segsLt_eq_aux]; exact ktf_imp h
      unfold rangeLt
      refine Bool.or_eq_false_iff.mpr ⟨?_, ?_⟩
      · unfold lowEp epLt
        rw [hss]
        cases hrs : r.start with
        | none => simp [optVEq]
        | some rs =>
          have hle : sLeL rs.version re.version :=
            sLeL_of_not_lt (hvr rs re hrs hre (hrns rs hrs) (hrne re hre))
          have hlt : segsLt rs.version sv.version = true :=
            segsLt_of_le_of_lt hle haux
          have hveq : optVEq (some sv) (some rs) = false := by
            simp only [optVEq, vEq, decide_eq_false_iff_not]
            intro he
            rw [← he] at hlt
            rw [segsLt_irrefl] at hlt
            exact absurd hlt (by simp)
          rw [hveq]
          simp only [Bool.false_eq_true, if_false]
          rw [show vLt sv rs = segsLt sv.version rs.version from rfl]
          exact segsLt_asymm hlt
      · unfold highEp epLt
        rw [hre]
        cases hse : s.«end» with
        | none => simp [optVEq]
        | some se =>
          have hle : sLeL sv.version se.version :=
            sLeL_of_not_lt (hvs sv se hss hse (hsns sv hss) (hsne se hse))
          have hlt : segsLt re.version se.version = true :=
            segsLt_of_lt_of_le haux hle
          have hveq : optVEq (some se) (some re) = false := by
            simp only [optVEq, vEq, decide_eq_false_iff_not]
            intro he
            rw [he] at hlt
            rw [segsLt_irrefl] at hlt
            exact absurd hlt (by simp)
          rw [hveq]
          simp only [Bool.false_eq_true, if_false]
          rw [show vLt se re = segsLt se.version re.version from rfl]
          exact segsLt_asymm hlt

/-- Separated elements are strictly ordered. -/
theorem sep_elemLt {a b : VElem} (ha : ElemOK a) (hb : ElemOK b)
    (h : keyLt (highKey a) (lowKey b) = true) : elemLt a b = true := by
  rw [elemLt_toR]
  exact rsep_lt (elemOK_toR ha) (elemOK_toR hb) h

/-- Separated elements are not ordered the other way. -/
theorem sep_not_elemLt {a b : VElem} (ha : ElemOK a) (hb : ElemOK b)
    (h : keyLt (highKey a) (lowKey b) = true) : elemLt b a = false := by
  rw [elemLt_toR]
  exact rsep_nlt (elemOK_toR ha) (elemOK_toR hb) h

theorem mkVersionRange_shape {st en : Option VersionT} {il ir : Bool}
    {u : VRange} (h : mkVersionRange st en il ir = .ok u) :
    u = ⟨st, en, il, ir⟩ := by
  unfold mkVersionRange at h
  split at h
  · exact absurd h (by simp)
  · split at h
    · exact absurd h (by simp)
    · split at h
      · exact absurd h (by simp)
      · cases h; rfl

theorem rangeUnion_ok_inl {r s u : VRange} (hov : rangeOverlaps r s = true)
    (h : rangeUnion r s = .ok (.inl u)) : rangeUnionMerged r s = .ok u := by
  unfold rangeUnion at h
  rw [hov] at h
  simp only [Bool.not_true, Bool.false_eq_true, if_false] at h
  cases hm : rangeUnionMerged r s with
  | error e => rw [hm] at h; simp [Except.map] at h
  | ok w =>
    rw [hm] at h
    simp only [Except.map, Except.ok.injEq, Sum.inl.injEq] at h
    rw [h]

theorem kle_ff {x y : List Seg} (h : sLeL x y) :
    keyLe (KeyE.k x false) (KeyE.k y false) := by
  show keyLt (KeyE.k y false) (KeyE.k x false) = false
  simp only [keyLt]
  rw [kff_eq]
  rcases h with he | hlt
  · subst he; exact segsLtAux_self x
  · exact segsLtAux_asymm ((segsLt_eq_aux x y) ▸ hlt)

theorem kle_tt_of_prefix {w x : List Seg} (h : w <+: x) :
    keyLe (KeyE.k x true) (KeyE.k w true) := by
  show keyLt (KeyE.k w true) (KeyE.k x true) = false
  simp only [keyLt]
  exact ktt_prefix h

theorem kle_tt_of_ge_noprefix {x y : List Seg} (h : sLeL x y)
    (hnp1 : ¬(x <+: y)) (hnp2 : ¬(y <+: x)) :
    keyLe (KeyE.k x true) (KeyE.k y true) := by
  show keyLt (KeyE.k y true) (KeyE.k x true) = false
  simp only [keyLt]
  rw [ ktt_eq_of_no_prefix hnp2 hnp1]
  rcases h with he | hlt
  · subst he; exact segsLtAux_self x
  · exact segsLtAux_asymm ((segsLt_eq_aux x y) ▸ hlt)

theorem startLe_keyLe {x y : Option VersionT} (h : startLe x y) :
    keyLe (lowKeyO x) (lowKeyO y) := by
  cases x with
  | none => exact keyLe_ninf_any _
  | some a =>
    cases y with
    | none => exact h.elim
    | some b => exact kle_ff h

/-- The start chosen by the overlap branch of `union` is the key-minimum of
the two starts, and is one of them. -/
theorem unionStart_hull (r s : VRange) :
    (lowKeyO (unionStart r s) = lowKeyR r ∨
      lowKeyO (unionStart r s) = lowKeyR s) ∧
    keyLe (lowKeyO (unionStart r s)) (lowKeyR r) ∧
    keyLe (lowKeyO (unionStart r s)) (lowKeyR s) := by
  obtain ⟨hsel, hler, hles⟩ := unionStart_cases r s
  refine ⟨?_, startLe_keyLe hler, startLe_keyLe hles⟩
  rcases hsel with h | h
  · exact Or.inl (congrArg lowKeyO h)
  · exact Or.inr (congrArg lowKeyO h)

/-- The end chosen by the overlap branch of `union` is the key-maximum of
the two ends, and is one of them: the prefix rule keeps whichever end
reaches farther up in key order. -/
theorem unionEnd_hull (r s : VRange) :
    (highKeyO (unionEnd r s) = highKeyR r ∨
      highKeyO (unionEnd r s) = highKeyR s) ∧
    keyLe (highKeyR r) (highKeyO (unionEnd r s)) ∧
    keyLe (highKeyR s) (highKeyO (unionEnd r s)) := by
  unfold unionEnd highKeyR
  cases hre : r.«end» with
  | none =>
    simp only [Option.isNone_none, Bool.true_or, if_true]
    exact ⟨Or.inl trivial, keyLe_any_pinf _, keyLe_any_pinf _⟩
  | some se =>
    cases hse : s.«end» with
    | none =>
      simp only [Option.isNone_some, Option.isNone_none, Bool.or_true, if_true]
      exact ⟨Or.inr trivial, keyLe_any_pinf _, keyLe_any_pinf _⟩
    | some oe =>
      simp only [Option.isNone_some, Bool.or_self, Bool.false_eq_true,
        if_false]
      by_cases h1 : vContains se oe = true
      · rw [h1]
        simp only [Bool.not_true, Bool.false_and, Bool.false_eq_true, if_false]
        exact ⟨Or.inl trivial, keyLe_refl _,
          kle_tt_of_prefix (vContains_iff.mp h1)⟩
      · have h1f : vContains se oe = false := Bool.eq_false_iff.mpr h1
        rw [h1f]
        simp only [Bool.not_false, Bool.true_and]
        by_cases h2 : vContains oe se = true
        · rw [h2]
          simp only [Bool.true_or, if_true]
          exact ⟨Or.inr trivial, kle_tt_of_prefix (vContains_iff.mp h2),
            keyLe_refl _⟩
        · have h2f : vContains oe se = false := Bool.eq_false_iff.mpr h2
          rw [h2f]
          simp only [Bool.false_or]
          have hnp1 : ¬(se.version <+: oe.version) := fun hp =>
            h1 (vContains_iff.mpr hp)
          have hnp2 : ¬(oe.version <+: se.version) := fun hp =>
            h2 (vContains_iff.mpr hp)
          by_cases hgt : vGt oe se = true
          · rw [hgt]
            simp only [if_true]
            have hle : sLeL se.version oe.version := by
              unfold vGt at hgt
              rw [Bool.and_eq_true] at hgt
              apply sLeL_of_not_lt
              simpa using hgt.2
            exact ⟨Or.inr trivial, kle_tt_of_ge_noprefix hle hnp1 hnp2,
              keyLe_refl _⟩
          · have hgtf : vGt oe se = false := Bool.eq_false_iff.mpr hgt
            rw [hgtf]
            simp only [Bool.false_eq_true, if_false]
            have hle : sLeL oe.version se.version := by
              unfold vGt at hgtf
              rcases Bool.and_eq_false_iff.mp hgtf with h | h
              · exfalso
                rw [Bool.not_eq_false'] at h
                exact hnp1 ((vEq_iff.mp h) ▸ List.prefix_refl _)
              · rw [Bool.not_eq_false'] at h
                exact Or.inr h
            exact ⟨Or.inl trivial, keyLe_refl _,
              kle_tt_of_ge_noprefix hle hnp2 hnp1⟩

/-- The overlap branch of `union` returns the key hull of its arguments. -/
theorem rangeUnionMerged_hull {r s u : VRange}
    (h : rangeUnionMerged r s = .ok u) :
    (lowKeyR u = lowKeyR r ∨ lowKeyR u = lowKeyR s) ∧
    keyLe (lowKeyR u) (lowKeyR r) ∧ keyLe (lowKeyR u) (lowKeyR s) ∧
    (highKeyR u = highKeyR r ∨ highKeyR u = highKeyR s) ∧
    keyLe (highKeyR r) (highKeyR u) ∧ keyLe (highKeyR s) (highKeyR u) := by
  unfold rangeUnionMerged at h
  have hu : u = ⟨unionStart r s, unionEnd r s, true, true⟩ :=
    mkVersionRange_shape h
  subst hu
  obtain ⟨hs1, hs2, hs3⟩ := unionStart_hull r s
  obtain ⟨he1, he2, he3⟩ := unionEnd_hull r s
  exact ⟨hs1, hs2, hs3, he1, he2, he3⟩

theorem rangeUnion_hull {r s ur : VRange} (hov : rangeOverlaps r s = true)
    (hru : rangeUnion r s = .ok (.inl ur)) :
    (lowKeyR ur = lowKeyR r ∨ lowKeyR ur = lowKeyR s) ∧
    keyLe (lowKeyR ur) (lowKeyR r) ∧ keyLe (lowKeyR ur) (lowKeyR s) ∧
    (highKeyR ur = highKeyR r ∨ highKeyR ur = highKeyR s) ∧
    keyLe (highKeyR r) (highKeyR ur) ∧ keyLe (highKeyR s) (highKeyR ur) :=
  rangeUnionMerged_hull (rangeUnion_ok_inl hov hru)

theorem rangeUnion_rangeOK {r s ur : VRange} (hr : RangeOK r)
    (hs : RangeOK s) (hov : rangeOverlaps r s = true)
    (hru : rangeUnion r s = .ok (.inl ur)) : RangeOK ur := by
  have hm := rangeUnion_ok_inl hov hru
  have hvb : rangeValidB ur := by
    unfold rangeUnionMerged at hm
    exact rangeValidB_of_mk hm
  have hshape : ur = ⟨unionStart r s, unionEnd r s, true, true⟩ := by
    unfold rangeUnionMerged at hm
    exact mkVersionRange_shape hm
  refine ⟨hvb, ?_, ?_⟩
  · intro a ha
    rw [hshape] at ha
    obtain ⟨hsel, _, _⟩ := unionStart_cases r s
    rcases hsel with h | h
    · exact hr.2.1 a (by rw [← h]; exact ha)
    · exact hs.2.1 a (by rw [← h]; exact ha)
  · intro b hb
    rw [hshape] at hb
    obtain ⟨hsel, _⟩ := unionEnd_cases r s
    rcases hsel with h | h
    · exact hr.2.2 b (by rw [← h]; exact hb)
    · exact hs.2.2 b (by rw [← h]; exact hb)

/-- A single-element union under the overlap guard is exactly the key hull
of the two elements. -/
theorem elemUnion2_hull {a b u : VElem} (hov : elemOverlaps a b = true)
    (h : elemUnion2 a b = .ok (.inl u)) :
    (lowKey u = lowKey a ∨ lowKey u = lowKey b) ∧
    keyLe (lowKey u) (lowKey a) ∧ keyLe (lowKey u) (lowKey b) ∧
    (highKey u = highKey a ∨ highKey u = highKey b) ∧
    keyLe (highKey a) (highKey u) ∧ keyLe (highKey b) (highKey u) := by
  cases a with
  | version va =>
    cases b with
    | version vb =>
      simp only [elemUnion2] at h
      cases hvu : versionUnion va vb with
      | inr p =>
        rw [hvu] at h
        simp at h
      | inl w =>
        rw [hvu] at h
        simp only [Except.ok.injEq, Sum.inl.injEq] at h
        subst h
        unfold versionUnion at hvu
        split at hvu
        · rename_i hc
          simp only [Sum.inl.injEq] at hvu
          subst hvu
          rcases Bool.or_eq_true_iff.mp hc with he | hcont
          · have hev : va.version = vb.version := vEq_iff.mp he
            refine ⟨Or.inl rfl, keyLe_refl _, ?_, Or.inl rfl, keyLe_refl _, ?_⟩
            · show keyLe (lowKeyO (some va)) (lowKeyO (some vb))
              simp only [lowKeyO, hev]
              exact keyLe_refl _
            · show keyLe (highKeyO (some vb)) (highKeyO (some va))
              simp only [highKeyO, hev]
              exact keyLe_refl _
          · have hp : va.version <+: vb.version := vContains_iff.mp hcont
            exact ⟨Or.inl rfl, keyLe_refl _, kle_ff (sLeL_of_prefix' hp),
              Or.inl rfl, keyLe_refl _, kle_tt_of_prefix hp⟩
        · split at hvu
          · rename_i hcont
            simp only [Sum.inl.injEq] at hvu
            subst hvu
            have hp : vb.version <+: va.version := vContains_iff.mp hcont
            exact ⟨Or.inr rfl, kle_ff (sLeL_of_prefix' hp), keyLe_refl _,
              Or.inr rfl, kle_tt_of_prefix hp, keyLe_refl _⟩
          · exact absurd hvu (by simp)
    | range rb =>
      simp only [elemUnion2] at h
      cases hru : rangeUnion (coerceR va) rb with
      | error e => rw [hru] at h; simp [Except.map] at h
      | ok w =>
        cases w with
        | inr p => rw [hru] at h; simp [Except.map] at h
        | inl ur =>
          rw [hru] at h
          simp only [Except.map, Except.ok.injEq, Sum.inl.injEq] at h
          subst h
          exact rangeUnion_hull hov hru
  | range ra =>
    cases b with
    | version vb =>
      simp only [elemUnion2] at h
      cases hru : rangeUnion ra (coerceR vb) with
      | error e => rw [hru] at h; simp [Except.map] at h
      | ok w =>
        cases w with
        | inr p => rw [hru] at h; simp [Except.map] at h
        | inl ur =>
          rw [hru] at h
          simp only [Except.map, Except.ok.injEq, Sum.inl.injEq] at h
          subst h
          exact rangeUnion_hull hov hru
    | range rb =>
      simp only [elemUnion2] at h
      cases hru : rangeUnion ra rb with
      | error e => rw [hru] at h; simp [Except.map] at h
      | ok w =>
        cases w with
        | inr p => rw [hru] at h; simp [Except.map] at h
        | inl ur =>
          rw [hru] at h
          simp only [Except.map, Except.ok.injEq, Sum.inl.injEq] at h
          subst h
          exact rangeUnion_hull hov hru

/-- A single-element union of sane elements is sane. -/
theorem elemUnion2_elemOK {a b u : VElem} (ha : ElemOK a) (hb : ElemOK b)
    (hov : elemOverlaps a b = true) (h : elemUnion2 a b = .ok (.inl u)) :
    ElemOK u := by
  cases a with
  | version va =>
    cases b with
    | version vb =>
      simp only [elemUnion2] at h
      cases hvu : versionUnion va vb with
      | inr p => rw [hvu] at h; simp at h
      | inl w =>
        rw [hvu] at h
        simp only [Except.ok.injEq, Sum.inl.injEq] at h
        subst h
        unfold versionUnion at hvu
        split at hvu
        · simp only [Sum.inl.injEq] at hvu
          subst hvu
          exact ha
        · split at hvu
          · simp only [Sum.inl.injEq] at hvu
            subst hvu
            exact hb
          · exact absurd hvu (by simp)
    | range rb =>
      simp only [elemUnion2] at h
      cases hru : rangeUnion (coerceR va) rb with
      | error e => rw [hru] at h; simp [Except.map] at h
      | ok w =>
        cases w with
        | inr p => rw [hru] at h; simp [Except.map] at h
        | inl ur =>
          rw [hru] at h
          simp only [Except.map, Except.ok.injEq, Sum.inl.injEq] at h
          subst h
          exact rangeUnion_rangeOK (elemOK_toR ha) (elemOK_toR hb) hov hru
  | range ra =>
    cases b with
    | version vb =>
      simp only [elemUnion2] at h
      cases hru : rangeUnion ra (coerceR vb) with
      | error e => rw [hru] at h; simp [Except.map] at h
      | ok w =>
        cases w with
        | inr p => rw [hru] at h; simp [Except.map] at h
        | inl ur =>
          rw [hru] at h
          simp only [Except.map, Except.ok.injEq, Sum.inl.injEq] at h
          subst h
          exact rangeUnion_rangeOK (elemOK_toR ha) (elemOK_toR hb) hov hru
    | range rb =>
      simp only [elemUnion2] at h
      cases hru : rangeUnion ra rb with
      | error e => rw [hru] at h; simp [Except.map] at h
      | ok w =>
        cases w with
        | inr p => rw [hru] at h; simp [Except.map] at h
        | inl ur =>
          rw [hru] at h
          simp only [Except.map, Except.ok.injEq, Sum.inl.injEq] at h
          subst h
          exact rangeUnion_rangeOK (elemOK_toR ha) (elemOK_toR hb) hov hru

/-- The binary search maintains the `bisect_left` contract: everything
before the returned index probes true, everything from it on probes
false. -/
theorem bisectLoop_spec (ltp : Nat → Bool) :
    ∀ (fuel lo hi : Nat), lo ≤ hi → hi - lo ≤ fuel →
      lo ≤ bisectLoop ltp fuel lo hi ∧ bisectLoop ltp fuel lo hi ≤ hi ∧
      (bisectLoop ltp fuel lo hi = lo ∨
        ltp (bisectLoop ltp fuel lo hi - 1) = true) ∧
      (bisectLoop ltp fuel lo hi = hi ∨
        ltp (bisectLoop ltp fuel lo hi) = false)
  | 0, lo, hi, hle, hfuel => by
    have : lo = hi := by omega
    subst this
    simp [bisectLoop]
  | fuel + 1, lo, hi, hle, hfuel => by
    by_cases hlt : lo < hi
    · simp only [bisectLoop, if_pos hlt]
      have hmlo : lo ≤ (lo + hi) / 2 := by omega
      have hmhi : (lo + hi) / 2 < hi := by omega
      by_cases hp : ltp ((lo + hi) / 2) = true
      · rw [if_pos hp]
        have hrec := bisectLoop_spec ltp fuel ((lo + hi) / 2 + 1) hi
          (by omega) (by omega)
        obtain ⟨h1, h2, h3, h4⟩ := hrec
        refine ⟨by omega, h2, ?_, h4⟩
        rcases h3 with h3 | h3
        · right; rw [h3]; simpa using hp
        · right; exact h3
      · rw [if_neg hp]
        have hrec := bisectLoop_spec ltp fuel lo ((lo + hi) / 2)
          (by omega) (by omega)
        obtain ⟨h1, h2, h3, h4⟩ := hrec
        refine ⟨h1, by omega, h3, ?_⟩
        rcases h4 with h4 | h4
        · right; rw [h4]; simpa using hp
        · right; exact h4
    · have : lo = hi := by omega
      subst this
      simp [bisectLoop]

theorem head?_mem {α : Type} {l : List α} {a : α} (h : l.head? = some a) :
    a ∈ l := by
  cases l with
  | nil => simp at h
  | cons x xs =>
    simp only [List.head?_cons, Option.some.injEq] at h
    subst h
    exact List.mem_cons_self x xs

theorem take_reverse_head {α : Type} (l : List α) (i : Nat) (d : α) (p : α)
    (hi : i ≤ l.length) (h : ((l.take i).reverse).head? = some p) :
    0 < i ∧ p = l.getD (i - 1) d := by
  rw [List.head?_reverse] at h
  cases hiz : i with
  | zero =>
    subst hiz
    simp at h
  | succ j =>
    subst hiz
    refine ⟨Nat.succ_pos j, ?_⟩
    have hlen : (l.take (j + 1)).length = j + 1 := by
      simp [List.length_take]
      omega
    have hg : (l.take (j + 1)).getLast? = (l.take (j + 1))[j]? := by
      rw [List.getLast?_eq_getElem?, hlen]
      simp
    rw [hg] at h
    rw [List.getElem?_take] at h
    rw [if_pos (by omega)] at h
    rw [List.getD_eq_getElem?_getD]
    simp only [Nat.add_sub_cancel]
    rw [h]
    rfl

theorem drop_head {α : Type} (l : List α) (i : Nat) (d : α) (q : α)
    (h : (l.drop i).head? = some q) : i < l.length ∧ q = l.getD i d := by
  have hne : l.drop i ≠ [] := by
    intro he
    rw [he] at h
    simp at h
  have hlt : i < l.length := by
    by_contra hge
    rw [List.drop_eq_nil_of_le (by omega)] at hne
    exact hne rfl
  refine ⟨hlt, ?_⟩
  rw [List.head?_drop] at h
  rw [List.getD_eq_getElem?_getD, h]
  rfl

/-- When `VersionRange.concrete` returns a Version, the range is degenerate:
the start is returned and the end carries the same segment tuple. -/
theorem rangeConcrete_some {r : VRange} {w : VersionT}
    (h : rangeConcrete r = .ok (some w)) :
    r.start = some w ∧ ∃ b, r.«end» = some b ∧ b.version = w.version := by
  unfold rangeConcrete at h
  split at h
  · exact absurd h (by simp)
  · rename_i hguard
    rw [Bool.not_eq_true', Bool.not_eq_false] at hguard
    split at h
    · rename_i heq
      split at h
      · exact absurd h (by simp)
      · exact absurd h (by simp)
    · rename_i v0 heq
      split at h
      · split at h
        · simp only [Except.ok.injEq, Option.some.injEq] at h
          subst h
          refine ⟨heq, ?_⟩
          rw [heq] at hguard
          cases hre : r.«end» with
          | none => rw [hre] at hguard; simp [optVEq] at hguard
          | some b =>
            rw [hre] at hguard
            simp only [optVEq] at hguard
            exact ⟨b, rfl, (vEq_iff.mp hguard).symm⟩
        · exact absurd h (by simp)
      · exact absurd h (by simp)

/-- Normalization at the top of `add` preserves sanity and both keys: it can
only replace a degenerate range by the Version at its endpoints. -/
theorem normalizeAdd_spec {e v : VElem} (he : ElemOK e)
    (h : normalizeAdd e = .ok v) :
    ElemOK v ∧ lowKey v = lowKey e ∧ highKey v = highKey e := by
  unfold normalizeAdd at h
  cases e with
  | version w =>
    simp only [elemConcrete, bind, Except.bind] at h
    split at h <;> (cases h; exact ⟨he, rfl, rfl⟩)
  | range r =>
    simp only [elemConcrete, bind, Except.bind] at h
    split at h
    · simp at h
    · rename_i c hc
      split at h
      · rename_i w hw
        split at h
        · cases h
          exact ⟨he, rfl, rfl⟩
        · rename_i hemp
          cases h
          obtain ⟨hrs, b, hre, hbv⟩ := rangeConcrete_some hc
          refine ⟨?_, ?_, ?_⟩
          · intro hnil
            exact hemp (by rw [List.isEmpty_iff]; exact hnil)
          · show lowKeyO (some _) = lowKeyO r.start
            rw [hrs]
          · show highKeyO (some _) = highKeyO r.«end»
            rw [hre]
            simp [highKeyO, hbv]
      · cases h
        exact ⟨he, rfl, rfl⟩

/-- What the backward merge loop of `add` guarantees: the incoming element
absorbs overlapping stored neighbours into its key hull, stops at a
separated element, and every stored element it leaves behind is separated
from (below) the grown element. -/
theorem mergeBack_spec :
    ∀ (ps : List VElem) (v : VElem), (∀ e ∈ ps, ElemOK e) → ElemOK v →
      List.Pairwise (fun a b => keyLt (highKey b) (lowKey a) = true) ps →
      (∀ p, ps.head? = some p → elemOverlaps v p = false →
        keyLt (highKey p) (lowKey v) = true) →
      ∀ ps' v', mergeBack ps v = .ok (ps', v') →
      ElemOK v' ∧ ps' <:+ ps ∧
      keyLe (lowKey v') (lowKey v) ∧ keyLe (highKey v) (highKey v') ∧
      (∀ p ∈ ps', keyLt (highKey p) (lowKey v') = true) ∧
      (highKey v' = highKey v ∨ ∃ c ∈ ps, highKey v' = highKey c) ∧
      (lowKey v' = lowKey v ∨ ∃ c ∈ ps, lowKey v' = lowKey c)
  | [], v, _, hv, _, _, ps', v', hmb => by
    simp only [mergeBack, Except.ok.injEq, Prod.mk.injEq] at hmb
    obtain ⟨h1, h2⟩ := hmb
    subst h1; subst h2
    exact ⟨hv, List.suffix_refl _, keyLe_refl _, keyLe_refl _,
      by intro p hp; simp at hp, Or.inl rfl, Or.inl rfl⟩
  | p :: ps, v, hok, hv, hpw, hfirst, ps', v', hmb => by
    rw [List.pairwise_cons] at hpw
    obtain ⟨hphead, hptail⟩ := hpw
    have hpOK : ElemOK p := hok p (List.mem_cons_self _ _)
    have htOK : ∀ e ∈ ps, ElemOK e := fun e he' =>
      hok e (List.mem_cons_of_mem _ he')
    unfold mergeBack at hmb
    split at hmb
    · rename_i hov
      split at hmb
      · rename_i u heq
        have hull := elemUnion2_hull hov heq
        obtain ⟨hl1, hl2, hl3, hh1, hh2, hh3⟩ := hull
        have huOK := elemUnion2_elemOK hv hpOK hov heq
        have hfirstQ : ∀ q, ps.head? = some q → elemOverlaps u q = false →
            keyLt (highKey q) (lowKey u) = true := by
          intro q hq hovq
          have hqmem : q ∈ ps := head?_mem hq
          have hqOK := htOK q hqmem
          rcases not_ov_cases hovq with hgood | hbad
          · exact hgood
          · exfalso
            have c1 : keyLt (highKey u) (highKey q) = true :=
              keyLt_of_lt_of_le hbad (elemOK_wf hqOK)
            have c2 : keyLt (highKey u) (lowKey p) = true :=
              keyLt_trans c1 (hphead q hqmem)
            have c3 : keyLt (highKey u) (highKey p) = true :=
              keyLt_of_lt_of_le c2 (elemOK_wf hpOK)
            have c4 : keyLt (highKey u) (highKey u) = true :=
              keyLt_of_lt_of_le c3 hh3
            rw [keyLt_irrefl] at c4
            exact absurd c4 (by simp)
        have hrec := mergeBack_spec ps u htOK huOK hptail hfirstQ ps' v' hmb
        obtain ⟨rOK, rsuf, rlow, rhigh, rsep, rf, rfQ⟩ := hrec
        refine ⟨rOK, rsuf.trans (List.suffix_cons p ps),
          keyLe_trans rlow hl2, keyLe_trans hh2 rhigh, rsep, ?_, ?_⟩
        · rcases rf with hfe | ⟨c, hcmem, hce⟩
          · rcases hh1 with hd | hd
            · exact Or.inl (hfe.trans hd)
            · exact Or.inr ⟨p, List.mem_cons_self _ _, hfe.trans hd⟩
          · exact Or.inr ⟨c, List.mem_cons_of_mem _ hcmem, hce⟩
        · rcases rfQ with hfe | ⟨c, hcmem, hce⟩
          · rcases hl1 with hd | hd
            · exact Or.inl (hfe.trans hd)
            · exact Or.inr ⟨p, List.mem_cons_self _ _, hfe.trans hd⟩
          · exact Or.inr ⟨c, List.mem_cons_of_mem _ hcmem, hce⟩
      · rename_i pr heq
        exact (elemUnion2_no_pair (by assumption) pr heq).elim
      · simp at hmb
    · rename_i hov
      simp only [Except.ok.injEq, Prod.mk.injEq] at hmb
      obtain ⟨h1, h2⟩ := hmb
      subst h1; subst h2
      have hovf : elemOverlaps v p = false := Bool.eq_false_iff.mpr hov
      have hsep := hfirst p rfl hovf
      refine ⟨hv, List.suffix_refl _, keyLe_refl _, keyLe_refl _, ?_,
        Or.inl rfl, Or.inl rfl⟩
      intro q hq
      rcases List.mem_cons.mp hq with he | hmem
      · subst he; exact hsep
      · exact keyLt_trans
          (keyLt_of_lt_of_le (hphead q hmem) (elemOK_wf hpOK)) hsep

/-- The forward merge loop, mirror image of `mergeBack_spec`. -/
theorem mergeForward_spec :
    ∀ (qs : List VElem) (v : VElem), (∀ e ∈ qs, ElemOK e) → ElemOK v →
      List.Pairwise (fun a b => keyLt (highKey a) (lowKey b) = true) qs →
      (∀ q, qs.head? = some q → elemOverlaps v q = false →
        keyLt (highKey v) (lowKey q) = true) →
      ∀ qs' v', mergeForward qs v = .ok (qs', v') →
      ElemOK v' ∧ qs' <:+ qs ∧
      keyLe (lowKey v') (lowKey v) ∧ keyLe (highKey v) (highKey v') ∧
      (∀ q ∈ qs', keyLt (highKey v') (lowKey q) = true) ∧
      (highKey v' = highKey v ∨ ∃ c ∈ qs, highKey v' = highKey c) ∧
      (lowKey v' = lowKey v ∨ ∃ c ∈ qs, lowKey v' = lowKey c)
  | [], v, _, hv, _, _, qs', v', hmf => by
    simp only [mergeForward, Except.ok.injEq, Prod.mk.injEq] at hmf
    obtain ⟨h1, h2⟩ := hmf
    subst h1; subst h2
    exact ⟨hv, List.suffix_refl _, keyLe_refl _, keyLe_refl _,
      by intro q hq; simp at hq, Or.inl rfl, Or.inl rfl⟩
  | q :: qs, v, hok, hv, hpw, hfirst, qs', v', hmf => by
    rw [List.pairwise_cons] at hpw
    obtain ⟨hqhead, hqtail⟩ := hpw
    have hqOK : ElemOK q := hok q (List.mem_cons_self _ _)
    have htOK : ∀ e ∈ qs, ElemOK e := fun e he' =>
      hok e (List.mem_cons_of_mem _ he')
    unfold mergeForward at hmf
    split at hmf
    · rename_i hov
      split at hmf
      · rename_i u heq
        have hull := elemUnion2_hull hov heq
        obtain ⟨hl1, hl2, hl3, hh1, hh2, hh3⟩ := hull
        have huOK := elemUnion2_elemOK hv hqOK hov heq
        have hfirstQ : ∀ x, qs.head? = some x → elemOverlaps u x = false →
            keyLt (highKey u) (lowKey x) = true := by
          intro x hx hovx
          have hxmem : x ∈ qs := head?_mem hx
          have hxOK := htOK x hxmem
          rcases not_ov_cases hovx with hbad | hgood
          · exfalso
            have c1 : keyLt (highKey x) (lowKey q) = true :=
              keyLt_of_lt_of_le hbad hl3
            have c2 : keyLt (highKey x) (highKey q) = true :=
              keyLt_of_lt_of_le c1 (elemOK_wf hqOK)
            have c3 : keyLt (highKey x) (lowKey x) = true :=
              keyLt_trans c2 (hqhead x hxmem)
            have c4 : keyLt (highKey x) (highKey x) = true :=
              keyLt_of_lt_of_le c3 (elemOK_wf hxOK)
            rw [keyLt_irrefl] at c4
            exact absurd c4 (by simp)
          · exact hgood
        have hrec := mergeForward_spec qs u htOK huOK hqtail hfirstQ qs' v' hmf
        obtain ⟨rOK, rsuf, rlow, rhigh, rsep, rf, rfQ⟩ := hrec
        refine ⟨rOK, rsuf.trans (List.suffix_cons q qs),
          keyLe_trans rlow hl2, keyLe_trans hh2 rhigh, rsep, ?_, ?_⟩
        · rcases rf with hfe | ⟨c, hcmem, hce⟩
          · rcases hh1 with hd | hd
            · exact Or.inl (hfe.trans hd)
            · exact Or.inr ⟨q, List.mem_cons_self _ _, hfe.trans hd⟩
          · exact Or.inr ⟨c, List.mem_cons_of_mem _ hcmem, hce⟩
        · rcases rfQ with hfe | ⟨c, hcmem, hce⟩
          · rcases hl1 with hd | hd
            · exact Or.inl (hfe.trans hd)
            · exact Or.inr ⟨q, List.mem_cons_self _ _, hfe.trans hd⟩
          · exact Or.inr ⟨c, List.mem_cons_of_mem _ hcmem, hce⟩
      · rename_i pr heq
        exact (elemUnion2_no_pair (by assumption) pr heq).elim
      · simp at hmf
    · rename_i hov
      simp only [Except.ok.injEq, Prod.mk.injEq] at hmf
      obtain ⟨h1, h2⟩ := hmf
      subst h1; subst h2
      have hovf : elemOverlaps v q = false := Bool.eq_false_iff.mpr hov
      have hsep := hfirst q rfl hovf
      refine ⟨hv, List.suffix_refl _, keyLe_refl _, keyLe_refl _, ?_,
        Or.inl rfl, Or.inl rfl⟩
      intro x hx
      rcases List.mem_cons.mp hx with he | hmem
      · subst he; exact hsep
      · exact keyLt_trans
          (keyLt_of_lt_of_le hsep (elemOK_wf hqOK)) (hqhead x hmem)

/-- The amended canonical-form invariant: every element is sane (no
empty-tuple endpoint Versions) and consecutive elements are key-separated
(each element's high key strictly below the next element's low key). -/
def Canon (l : List VElem) : Prop :=
  (∀ e ∈ l, ElemOK e) ∧
    List.Pairwise (fun a b => keyLt (highKey a) (lowKey b) = true) l

/-- `VersionList.add` of one sane element preserves the invariant. -/
theorem addElem_canon {l : List VElem} {e : VElem} {l' : List VElem}
    (hc : Canon l) (he : ElemOK e) (h : addElem l e = .ok l') : Canon l' := by
  obtain ⟨hok, hpw⟩ := hc
  unfold addElem at h
  cases hn : normalizeAdd e with
  | error err => rw [hn] at h; simp [bind, Except.bind] at h
  | ok v =>
    rw [hn] at h
    simp only [bind, Except.bind] at h
    obtain ⟨hvOK, _, _⟩ := normalizeAdd_spec he hn
    have hbis := bisectLoop_spec
      (fun m => elemLt (l.getD m (.version ⟨"", [], []⟩)) v)
      l.length 0 l.length (Nat.zero_le _) (by omega)
    have hile : bisect_left l v ≤ l.length := hbis.2.1
    have hlowb : bisect_left l v = 0 ∨
        elemLt (l.getD (bisect_left l v - 1) (.version ⟨"", [], []⟩)) v =
          true := hbis.2.2.1
    have hhighb : bisect_left l v = l.length ∨
        elemLt (l.getD (bisect_left l v) (.version ⟨"", [], []⟩)) v =
          false := hbis.2.2.2
    have hcross : ∀ a ∈ l.take (bisect_left l v),
        ∀ b ∈ l.drop (bisect_left l v),
        keyLt (highKey a) (lowKey b) = true := by
      have hsplit : List.Pairwise
          (fun a b => keyLt (highKey a) (lowKey b) = true)
          (l.take (bisect_left l v) ++ l.drop (bisect_left l v)) := by
        rw [List.take_append_drop]
        exact hpw
      exact (List.pairwise_append.mp hsplit).2.2
    have htakeOK : ∀ x ∈ (l.take (bisect_left l v)).reverse, ElemOK x := by
      intro x hx
      exact hok x (List.mem_of_mem_take (List.mem_reverse.mp hx))
    have htakerev : List.Pairwise
        (fun a b => keyLt (highKey b) (lowKey a) = true)
        ((l.take (bisect_left l v)).reverse) := by
      rw [List.pairwise_reverse]
      exact hpw.sublist (List.take_sublist _ _)
    have hfirstB : ∀ p, ((l.take (bisect_left l v)).reverse).head? = some p →
        elemOverlaps v p = false → keyLt (highKey p) (lowKey v) = true := by
      intro p hp hovp
      obtain ⟨hipos, hpd⟩ :=
        take_reverse_head l (bisect_left l v) (.version ⟨"", [], []⟩) p hile hp
      have hpOK : ElemOK p :=
        hok p (List.mem_of_mem_take (List.mem_reverse.mp (head?_mem hp)))
      have hlt : elemLt p v = true := by
        rcases hlowb with h0 | h0
        · omega
        · rw [hpd]; exact h0
      rcases not_ov_cases hovp with hgood | hbad
      · exact hgood
      · rw [sep_not_elemLt hvOK hpOK hbad] at hlt
        exact absurd hlt (by simp)
    cases hbw : mergeBack (l.take (bisect_left l v)).reverse v with
    | error err => rw [hbw] at h; simp at h
    | ok bw =>
      rw [hbw] at h
      dsimp only at h
      obtain ⟨bOK, bsuf, blow, bhigh, bsep, bf, bfQ⟩ :=
        mergeBack_spec ((l.take (bisect_left l v)).reverse) v htakeOK hvOK
          htakerev hfirstB bw.1 bw.2 (by rw [hbw])
      have hdropOK : ∀ x ∈ l.drop (bisect_left l v), ElemOK x := by
        intro x hx
        exact hok x ((List.drop_suffix _ _).subset hx)
      have hdroppw : List.Pairwise
          (fun a b => keyLt (highKey a) (lowKey b) = true)
          (l.drop (bisect_left l v)) :=
        hpw.sublist (List.drop_sublist _ _)
      have hfirstF : ∀ q, (l.drop (bisect_left l v)).head? = some q →
          elemOverlaps bw.2 q = false →
          keyLt (highKey bw.2) (lowKey q) = true := by
        intro q hq hovq
        obtain ⟨hilt, hqd⟩ :=
          drop_head l (bisect_left l v) (.version ⟨"", [], []⟩) q hq
        have hqmem : q ∈ l.drop (bisect_left l v) := head?_mem hq
        have hqOK : ElemOK q := hdropOK q hqmem
        have hltf : elemLt q v = false := by
          rcases hhighb with h0 | h0
          · omega
          · rw [hqd]; exact h0
        have hov_vq : elemOverlaps v q = false := by
          by_cases hvq : elemOverlaps v q = true
          · rw [ov_grow blow bhigh hvq] at hovq
            exact absurd hovq (by simp)
          · simpa using hvq
        rcases not_ov_cases hov_vq with hbad | hgood
        · rw [sep_elemLt hqOK hvOK hbad] at hltf
          exact absurd hltf (by simp)
        · rcases bf with hfe | ⟨c, hcmem, hce⟩
          · rw [hfe]; exact hgood
          · rw [hce]
            exact hcross c (List.mem_reverse.mp hcmem) q hqmem
      cases hfw : mergeForward (l.drop (bisect_left l v)) bw.2 with
      | error err => rw [hfw] at h; simp at h
      | ok fw =>
        rw [hfw] at h
        dsimp only at h
        simp only [pure, Except.pure, Except.ok.injEq] at h
        subst h
        obtain ⟨fOK, fsuf, flow, fhigh, fsep, ff, ffQ⟩ :=
          mergeForward_spec (l.drop (bisect_left l v)) bw.2 hdropOK bOK
            hdroppw hfirstF fw.1 fw.2 (by rw [hfw])
        constructor
        · intro x hx
          rcases List.mem_append.mp hx with hx | hx
          · exact hok x (List.mem_of_mem_take
              (List.mem_reverse.mp (bsuf.subset (List.mem_reverse.mp hx))))
          · rcases List.mem_cons.mp hx with hx | hx
            · rw [hx]; exact fOK
            · exact hok x ((List.drop_suffix _ _).subset (fsuf.subset hx))
        · rw [List.pairwise_append]
          refine ⟨?_, ?_, ?_⟩
          · rw [List.pairwise_reverse]
            exact htakerev.sublist bsuf.sublist
          · rw [List.pairwise_cons]
            exact ⟨fsep, hdroppw.sublist fsuf.sublist⟩
          · intro a ha b hb
            have haT : a ∈ l.take (bisect_left l v) :=
              List.mem_reverse.mp (bsuf.subset (List.mem_reverse.mp ha))
            rcases List.mem_cons.mp hb with hb | hb
            · subst hb
              rcases ffQ with hfe | ⟨c, hcmem, hce⟩
              · rw [hfe]
                exact bsep a (List.mem_reverse.mp ha)
              · rw [hce]
                exact hcross a haT c hcmem
            · exact hcross a haT b (fsuf.subset hb)

/-- `VersionList.add` of a VersionList of sane elements preserves the
invariant. -/
theorem addMany_canon : ∀ {es : List VElem} {l l' : List VElem},
    Canon l → (∀ e ∈ es, ElemOK e) → addMany l es = .ok l' → Canon l'
  | [], l, l', hc, _, h => by
    simp only [addMany, List.foldlM] at h
    cases h
    exact hc
  | e :: es, l, l', hc, hes, h => by
    simp only [addMany, List.foldlM, bind, Except.bind] at h
    cases ha : addElem l e with
    | error err => rw [ha] at h; simp at h
    | ok m =>
      rw [ha] at h
      have hm : Canon m :=
        addElem_canon hc (hes e (List.mem_cons_self _ _)) ha
      exact addMany_canon hm
        (fun x hx => hes x (List.mem_cons_of_mem _ hx)) h

/-- A canonical list is strictly sorted and pairwise non-overlapping. -/
theorem canon_sorted_disjoint {l : List VElem} (hc : Canon l) :
    List.Pairwise (fun a b => elemLt a b = true ∧ elemLt b a = false ∧
      elemOverlaps a b = false) l := by
  obtain ⟨hok, hpw⟩ := hc
  refine hpw.imp_of_mem ?_
  intro a b ha hb hsep
  refine ⟨sep_elemLt (hok a ha) (hok b hb) hsep,
    sep_not_elemLt (hok a ha) (hok b hb) hsep, ?_⟩
  by_cases hov : elemOverlaps a b = true
  · rw [((elemOverlaps_iff_keys a b).mp hov).2] at hsep
    exact absurd hsep (by simp)
  · simpa using hov

/-! ### Claim C2: the canonical-form invariant of VersionList.add -/

/-- C2 counterexample: after adding the ranges 1.0:1.5 and 1.6:2.0 to the
empty list, the result keeps both elements although their union is the
single range 1.0:2.0 — `add` never merges integer-adjacent disjoint
neighbours, so the list is not maximally merged.  And after adding the
ranges 9:. (whose end, `Version(".")`, has an empty segment tuple), 5:6,
7:8 and 10:11, the first and last elements of the resulting four-element
list overlap — pairwise disjointness also fails on constructible input. -/
theorem add_canonical_cex :
    (addMany []
      [.range ⟨some ⟨"1.0", [.num 1, .num 0], [".", ""]⟩,
        some ⟨"1.5", [.num 1, .num 5], [".", ""]⟩, true, true⟩,
       .range ⟨some ⟨"1.6", [.num 1, .num 6], [".", ""]⟩,
        some ⟨"2.0", [.num 2, .num 0], [".", ""]⟩, true, true⟩] =
      .ok [.range ⟨some ⟨"1.0", [.num 1, .num 0], [".", ""]⟩,
        some ⟨"1.5", [.num 1, .num 5], [".", ""]⟩, true, true⟩,
       .range ⟨some ⟨"1.6", [.num 1, .num 6], [".", ""]⟩,
        some ⟨"2.0", [.num 2, .num 0], [".", ""]⟩, true, true⟩]) ∧
    (elemUnion2
      (.range ⟨some ⟨"1.0", [.num 1, .num 0], [".", ""]⟩,
        some ⟨"1.5", [.num 1, .num 5], [".", ""]⟩, true, true⟩)
      (.range ⟨some ⟨"1.6", [.num 1, .num 6], [".", ""]⟩,
        some ⟨"2.0", [.num 2, .num 0], [".", ""]⟩, true, true⟩) =
      .ok (.inl (.range ⟨some ⟨"1.0", [.num 1, .num 0], [".", ""]⟩,
        some ⟨"2.0", [.num 2, .num 0], [".", ""]⟩, true, true⟩))) ∧
    (addMany []
      [.range ⟨some ⟨"9", [.num 9], [""]⟩, some ⟨".", [], []⟩, true, true⟩,
       .range ⟨some ⟨"5", [.num 5], [""]⟩, some ⟨"6", [.num 6], [""]⟩,
         true, true⟩,
       .range ⟨some ⟨"7", [.num 7], [""]⟩, some ⟨"8", [.num 8], [""]⟩,
         true, true⟩,
       .range ⟨some ⟨"10", [.num 10], [""]⟩, some ⟨"11", [.num 11], [""]⟩,
         true, true⟩] =
      .ok [.range ⟨some ⟨"9", [.num 9], [""]⟩, some ⟨".", [], []⟩,
         true, true⟩,
       .range ⟨some ⟨"5", [.num 5], [""]⟩, some ⟨"6", [.num 6], [""]⟩,
         true, true⟩,
       .range ⟨some ⟨"7", [.num 7], [""]⟩, some ⟨"8", [.num 8], [""]⟩,
         true, true⟩,
       .range ⟨some ⟨"10", [.num 10], [""]⟩, some ⟨"11", [.num 11], [""]⟩,
         true, true⟩]) ∧
    (elemOverlaps
      (.range ⟨some ⟨"9", [.num 9], [""]⟩, some ⟨".", [], []⟩, true, true⟩)
      (.range ⟨some ⟨"10", [.num 10], [""]⟩, some ⟨"11", [.num 11], [""]⟩,
        true, true⟩) = true) := by
  refine ⟨by decide, by decide, by decide, by decide⟩

/-- C2 (amended): starting from any canonical list — one whose elements
carry no empty-segment-tuple endpoint Version and are pairwise key-separated
— any successful sequence of `add` operations (single Versions or
VersionRanges, or whole VersionLists element by element) yields a canonical
list again, and a canonical list is strictly sorted by the element order
with no two elements (adjacent or not) overlapping.  The empty list is
canonical, so this covers every list built by `add` from scratch over sane
elements.  Maximal merging, however, does not hold (see the
counterexample), and neither sortedness nor disjointness survives
empty-segment-tuple endpoints. -/
theorem add_canonical :
    Canon [] ∧
    (∀ (l : List VElem) (e : VElem) (l' : List VElem),
      Canon l → ElemOK e → addElem l e = .ok l' → Canon l') ∧
    (∀ (l es l' : List VElem),
      Canon l → (∀ x ∈ es, ElemOK x) → addMany l es = .ok l' → Canon l') ∧
    (∀ l : List VElem, Canon l →
      List.Pairwise (fun a b => elemLt a b = true ∧ elemLt b a = false ∧
        elemOverlaps a b = false) l) :=
  ⟨⟨fun e he => absurd he (by simp), List.Pairwise.nil⟩,
   fun _ _ _ hc he h => addElem_canon hc he h,
   fun _ _ _ hc hes h => addMany_canon hc hes h,
   fun _ hc => canon_sorted_disjoint hc⟩

/-- Witness: the list-add clause of `add_canonical` applied to the empty
list and the singleton list containing the range 1.0:1.5. -/
theorem add_canonical_witness :
    Canon [.range ⟨some ⟨"1.0", [.num 1, .num 0], [".", ""]⟩,
      some ⟨"1.5", [.num 1, .num 5], [".", ""]⟩, true, true⟩] :=
  add_canonical.2.2.1 []
    [.range ⟨some ⟨"1.0", [.num 1, .num 0], [".", ""]⟩,
      some ⟨"1.5", [.num 1, .num 5], [".", ""]⟩, true, true⟩]
    [.range ⟨some ⟨"1.0", [.num 1, .num 0], [".", ""]⟩,
      some ⟨"1.5", [.num 1, .num 5], [".", ""]⟩, true, true⟩]
    ⟨fun e he => absurd he (by simp), List.Pairwise.nil⟩
    (by
      intro x hx
      simp only [List.mem_singleton] at hx
      subst hx
      refine ⟨?_, ?_, ?_⟩
      · intro a b ha hb _ _
        injection ha with h1
        injection hb with h2
        subst h1; subst h2
        decide
      · intro a ha
        injection ha with h1
        subst h1
        decide
      · intro b hb
        injection hb with h1
        subst h1
        decide)
    (by decide)

/-! ### Round-trip helpers: strip idempotence and split/join -/

theorem dropWhile_head_false {p : Char → Bool} {l : List Char}
    (h : ∀ c, l.head? = some c → p c = false) : l.dropWhile p = l := by
  cases l with
  | nil => rfl
  | cons x xs =>
    rw [List.dropWhile_cons]
    simp [h x rfl]

theorem head_dropWhile_false (p : Char → Bool) :
    ∀ (l : List Char) (c : Char), (l.dropWhile p).head? = some c →
      p c = false
  | [], c, h => by simp at h
  | x :: xs, c, h => by
    rw [List.dropWhile_cons] at h
    by_cases hx : p x = true
    · rw [if_pos hx] at h
      exact head_dropWhile_false p xs c h
    · rw [if_neg hx] at h
      simp only [List.head?_cons, Option.some.injEq] at h
      subst h
      simpa using hx

theorem prefix_head {l₁ l₂ : List Char} {c : Char} (h : l₁ <+: l₂)
    (hc : l₁.head? = some c) : l₂.head? = some c := by
  obtain ⟨t, ht⟩ := h
  subst ht
  cases l₁ with
  | nil => simp at hc
  | cons x xs => simpa using hc

theorem stripChars_idem (x : List Char) :
    stripChars (stripChars x) = stripChars x := by
  unfold stripChars
  set y := x.dropWhile pySpace with hy
  set w := y.reverse.dropWhile pySpace with hw
  have hyhead : ∀ c, y.head? = some c → pySpace c = false := by
    intro c hc
    rw [hy] at hc
    exact head_dropWhile_false pySpace x c hc
  have hwsuf : w <:+ y.reverse := by
    rw [hw]
    exact List.dropWhile_suffix _
  have hzpre : w.reverse <+: y := by
    have h2 := List.reverse_prefix.mpr hwsuf
    rwa [List.reverse_reverse] at h2
  have hwhead : ∀ c, w.head? = some c → pySpace c = false := by
    intro c hc
    rw [hw] at hc
    exact head_dropWhile_false pySpace _ c hc
  have hzhead : ∀ c, (w.reverse).head? = some c → pySpace c = false := by
    intro c hc
    exact hyhead c (prefix_head hzpre hc)
  rw [dropWhile_head_false hzhead, List.reverse_reverse,
    dropWhile_head_false hwhead]

theorem validChar_not_pySpace {c : Char} (h : validChar c = true) :
    pySpace c = false := by
  by_cases hp : pySpace c = true
  · exfalso
    simp only [pySpace, Bool.or_eq_true, decide_eq_true_eq] at hp
    rcases hp with ((((h1 | h1) | h1) | h1) | h1) | h1 <;>
      (subst h1; exact absurd h (by decide))
  · simpa using hp

theorem stripChars_head (c : Char) (rest : List Char)
    (hc : pySpace c = false) :
    ∃ cs, stripChars (c :: rest) = c :: cs := by
  unfold stripChars
  rw [show (c :: rest).dropWhile pySpace = c :: rest from by
    rw [List.dropWhile_cons, hc]
    simp]
  have hne : (c :: rest).reverse.dropWhile pySpace ≠ [] := by
    intro he
    rw [List.dropWhile_eq_nil_iff] at he
    have := he c (by simp)
    rw [hc] at this
    exact absurd this (by simp)
  have hpre : ((c :: rest).reverse.dropWhile pySpace).reverse <+:
      (c :: rest) := by
    have h1 : (c :: rest).reverse.dropWhile pySpace <:+ (c :: rest).reverse :=
      List.dropWhile_suffix _
    have h2 := List.reverse_prefix.mpr h1
    rwa [List.reverse_reverse] at h2
  obtain ⟨t, ht⟩ := hpre
  cases hz : ((c :: rest).reverse.dropWhile pySpace).reverse with
  | nil =>
    exfalso
    rw [List.reverse_eq_nil_iff] at hz
    exact hne hz
  | cons z zs =>
    rw [hz] at ht
    rw [List.cons_append] at ht
    have hzc : z = c := by injection ht
    exact ⟨zs, by rw [hzc]⟩

/-- The Version constructor is idempotent through the stored string: parsing
`v.string` rebuilds `v` exactly, and the stored string starts with the valid
first character of the input. -/
theorem mkVersion_idem {s : String} {v : VersionT} (h : mkVersion s = .ok v) :
    mkVersion v.string = .ok v ∧
      ∃ c cs, v.string.data = c :: cs ∧ validChar c = true := by
  unfold mkVersion at h
  split at h
  · exact absurd h (by simp)
  · rename_i c rest heq
    split at h
    · rename_i hval
      simp only [Except.ok.injEq] at h
      subst h
      obtain ⟨cs, hcs⟩ := stripChars_head c rest
        (validChar_not_pySpace hval)
      have hdata : (String.mk (stripChars s.data)).data = stripChars s.data :=
        rfl
      have hsc : stripChars (c :: cs) = c :: cs := by
        conv_lhs => rw [← hcs]
        rw [stripChars_idem, hcs]
      constructor
      · show mkVersion (String.mk (stripChars s.data)) = _
        unfold mkVersion
        rw [hdata, heq, hcs]
        dsimp only
        rw [if_pos hval, hsc]
      · exact ⟨c, cs, by rw [hdata, heq, hcs], hval⟩
    · exact absurd h (by simp)

theorem splitOnChar_not_mem {c : Char} : ∀ (xs : List Char), c ∉ xs →
    splitOnChar c xs = [xs]
  | [], _ => rfl
  | x :: xs, h => by
    have hx : x ≠ c := fun he => h (by rw [← he]; exact List.mem_cons_self _ _)
    have hr := splitOnChar_not_mem
      xs (fun hm => h (List.mem_cons_of_mem _ hm))
    simp only [splitOnChar, if_neg hx, hr]

theorem splitOnChar_append {c : Char} : ∀ (xs ys : List Char),
    c ∉ xs → splitOnChar c (xs ++ c :: ys) = xs :: splitOnChar c ys
  | [], ys, _ => by
    simp [splitOnChar]
  | x :: xs, ys, h => by
    have hx : x ≠ c := fun he => h (by rw [← he]; exact List.mem_cons_self _ _)
    have hr := splitOnChar_append
      xs ys (fun hm => h (List.mem_cons_of_mem _ hm))
    simp only [List.cons_append, splitOnChar, if_neg hx, List.append_eq, hr]

theorem filter_ne_space {l : List Char} (h : ' ' ∉ l) :
    l.filter (fun c => c ≠ ' ') = l := by
  apply List.filter_eq_self.mpr
  intro a ha
  simp only [ne_eq, decide_eq_true_eq]
  intro he
  subst he
  exact h ha

theorem contains_false_of_not_mem {l : List Char} {c : Char} (h : c ∉ l) :
    l.contains c = false := by
  simpa using h

theorem contains_true_of_mem {l : List Char} {c : Char} (h : c ∈ l) :
    l.contains c = true := by
  simpa using h

/-- Round trip of a single plain Version: if its stored string has no comma,
colon, space or star component, `ver` parses it back to the same Version. -/
theorem version_roundtrip_aux {s : String} {v : VersionT}
    (h : mkVersion s = .ok v)
    (hc : ',' ∉ v.string.data) (hcol : ':' ∉ v.string.data)
    (hsp : ' ' ∉ v.string.data)
    (hstar : hasStarComponent (some v) = .ok false) :
    verS v.string = .ok (.v v) := by
  obtain ⟨hidem, c, cs, hdat, hval⟩ := mkVersion_idem h
  unfold verS
  dsimp only
  rw [filter_ne_space hsp]
  rw [contains_false_of_not_mem hc]
  simp only [Bool.false_eq_true, if_false]
  rw [contains_false_of_not_mem hcol]
  simp only [Bool.false_eq_true, if_false]
  simp only [bind, Except.bind]
  rw [show String.mk v.string.data = v.string from rfl, hidem]
  dsimp only
  rw [hstar]
  simp [pure, Except.pure]

/-- Round trip of a fully-inclusive range with distinct plain endpoints:
`str` prints `start:end` and `ver` parses that back to the same range. -/
theorem range_roundtrip_aux {sa sb : String} {a b : VersionT} {r : VRange}
    (ha : mkVersion sa = .ok a) (hb : mkVersion sb = .ok b)
    (hac : ',' ∉ a.string.data) (hacol : ':' ∉ a.string.data)
    (hasp : ' ' ∉ a.string.data)
    (hbc : ',' ∉ b.string.data) (hbcol : ':' ∉ b.string.data)
    (hbsp : ' ' ∉ b.string.data)
    (hne : vEq a b = false)
    (hmk : mkVersionRange (some a) (some b) true true = .ok r) :
    rangeStr r = .ok (a.string ++ ":" ++ b.string) ∧
    verS (a.string ++ ":" ++ b.string) = .ok (.r r) := by
  obtain ⟨haidem, ca, csa, hadat, haval⟩ := mkVersion_idem ha
  obtain ⟨hbidem, cb, csb, hbdat, hbval⟩ := mkVersion_idem hb
  have hshape : r = ⟨some a, some b, true, true⟩ := mkVersionRange_shape hmk
  subst hshape
  have hdata : (a.string ++ ":" ++ b.string).data =
      a.string.data ++ ':' :: b.string.data := by
    rw [String.data_append, String.data_append]
    rw [show (":" : String).data = [':'] from rfl]
    simp
  constructor
  · unfold rangeStr
    simp [optVEq, hne]
  · unfold verS
    dsimp only
    rw [hdata]
    rw [filter_ne_space (l := a.string.data ++ ':' :: b.string.data) (by
      intro hm
      rcases List.mem_append.mp hm with hm | hm
      · exact hasp hm
      · rcases List.mem_cons.mp hm with hm | hm
        · exact absurd hm.symm (by decide)
        · exact hbsp hm)]
    rw [contains_false_of_not_mem
      (l := a.string.data ++ ':' :: b.string.data) (c := ',') (by
      intro hm
      rcases List.mem_append.mp hm with hm | hm
      · exact hac hm
      · rcases List.mem_cons.mp hm with hm | hm
        · exact absurd hm.symm (by decide)
        · exact hbc hm)]
    simp only [Bool.false_eq_true, if_false]
    rw [contains_true_of_mem
      (l := a.string.data ++ ':' :: b.string.data) (c := ':')
      (List.mem_append.mpr (Or.inr (List.mem_cons_self _ _)))]
    simp only [if_true]
    unfold parseRangePiece
    rw [splitOnChar_append _ _ hacol, splitOnChar_not_mem _ hbcol]
    dsimp only
    have hane : a.string.data.isEmpty = false := by
      rw [hadat]; rfl
    have hbne : b.string.data.isEmpty = false := by
      rw [hbdat]; rfl
    rw [hane, hbne]
    simp only [Bool.false_eq_true, if_false]
    simp only [bind, Except.bind]
    rw [show String.mk a.string.data = a.string from rfl,
      show String.mk b.string.data = b.string from rfl]
    rw [haidem, hbidem]
    simp only [pure, Except.pure]
    try dsimp only
    rw [hmk]

/-- Adding an element key-above everything stored appends it: the bisect
lands at the end and neither merge loop consumes anything. -/
theorem addElem_append {l : List VElem} {e : VElem}
    (hok : ∀ x ∈ l, ElemOK x) (he : ElemOK e)
    (hsep : ∀ x ∈ l, keyLt (highKey x) (lowKey e) = true)
    (hne : normalizeAdd e = .ok e) :
    addElem l e = .ok (l ++ [e]) := by
  unfold addElem
  rw [hne]
  simp only [bind, Except.bind]
  have hbisval : bisect_left l e = l.length := by
    have hbis := bisectLoop_spec
      (fun m => elemLt (l.getD m (.version ⟨"", [], []⟩)) e)
      l.length 0 l.length (Nat.zero_le _) (by omega)
    rcases hbis.2.2.2 with h0 | h0
    · exact h0
    · by_cases hlen : bisect_left l e = l.length
      · exact hlen
      · exfalso
        have hub : bisect_left l e ≤ l.length := hbis.2.1
        have hlt : bisect_left l e < l.length := lt_of_le_of_ne hub hlen
        have h0Q : elemLt (l.getD (bisect_left l e)
            (.version ⟨"", [], []⟩)) e = false := h0
        have hgd : l.getD (bisect_left l e) (.version ⟨"", [], []⟩) =
            l[bisect_left l e] := List.getD_eq_getElem l _ hlt
        have hmem : l[bisect_left l e] ∈ l := List.getElem_mem hlt
        have hlt2 := sep_elemLt (hok _ hmem) he (hsep _ hmem)
        rw [hgd, hlt2] at h0Q
        exact absurd h0Q (by simp)
  rw [hbisval, List.take_length, List.drop_length]
  have hmb : mergeBack l.reverse e = .ok (l.reverse, e) := by
    cases hrev : l.reverse with
    | nil => simp [mergeBack]
    | cons p ps =>
      have hpmem : p ∈ l := by
        rw [← List.mem_reverse, hrev]
        exact List.mem_cons_self _ _
      have hovf : ¬ elemOverlaps e p = true := by
        intro hov
        have h1 := ((elemOverlaps_iff_keys e p).mp hov).1
        rw [hsep p hpmem] at h1
        exact absurd h1 (by simp)
      unfold mergeBack
      rw [dif_neg hovf]
  rw [hmb]
  dsimp only
  rw [show mergeForward [] e = .ok ([], e) from rfl]
  dsimp only
  simp [pure, Except.pure, List.reverse_reverse]

theorem mapM_ok_length : ∀ {l : List VElem} {ss : List String},
    l.mapM elemStr = .ok ss → ss.length = l.length
  | [], ss, h => by
    simp only [List.mapM_nil, pure, Except.pure, Except.ok.injEq] at h
    subst h
    rfl
  | e :: es, ss, h => by
    rw [List.mapM_cons] at h
    simp only [bind, Except.bind] at h
    cases he : elemStr e with
    | error err => rw [he] at h; simp at h
    | ok se =>
      rw [he] at h
      dsimp only at h
      cases hm : es.mapM elemStr with
      | error err => rw [hm] at h; simp at h
      | ok tl =>
        rw [hm] at h
        dsimp only at h
        simp only [pure, Except.pure, Except.ok.injEq] at h
        subst h
        simp [mapM_ok_length hm]

/-- Folding `add` over already-sorted, pairwise-separated, normalized
elements appends them one by one. -/
theorem verPieces_fold : ∀ (es : List VElem) (ps : List (List Char))
    (acc : List VElem),
    (∀ pr ∈ ps.zip es, verPiece pr.1 = .ok (.inl pr.2)) →
    ps.length = es.length →
    (∀ x, x ∈ acc ++ es → ElemOK x) →
    List.Pairwise (fun a b => keyLt (highKey a) (lowKey b) = true)
      (acc ++ es) →
    (∀ x ∈ es, normalizeAdd x = .ok x) →
    ps.foldlM (fun acc p => do
        let pv ← verPiece p
        addAny acc pv) acc = .ok (acc ++ es)
  | [], [], acc, _, _, _, _, _ => by simp [List.foldlM, pure, Except.pure]
  | [], p :: ps, acc, _, hlen, _, _, _ => by simp at hlen
  | e :: es, [], acc, _, hlen, _, _, _ => by simp at hlen
  | e :: es, p :: ps, acc, hzip, hlen, hok, hpw, hnorm => by
    have hhead : verPiece p = .ok (.inl e) := by
      have := hzip (p, e) (by rw [List.zip_cons_cons]; exact List.mem_cons_self _ _)
      exact this
    have hadd : addElem acc e = .ok (acc ++ [e]) := by
      apply addElem_append
      · intro x hx
        exact hok x (List.mem_append.mpr (Or.inl hx))
      · exact hok e (List.mem_append.mpr (Or.inr (List.mem_cons_self _ _)))
      · intro x hx
        exact (List.pairwise_append.mp hpw).2.2 x hx e
          (List.mem_cons_self _ _)
      · exact hnorm e (List.mem_cons_self _ _)
    have hassoc : acc ++ e :: es = (acc ++ [e]) ++ es := by
      rw [List.append_assoc, List.singleton_append]
    rw [List.foldlM_cons]
    simp only [bind, Except.bind]
    rw [hhead]
    dsimp only [addAny]
    rw [hadd]
    dsimp only
    rw [hassoc]
    apply verPieces_fold es ps (acc ++ [e])
    · intro pr hpr
      apply hzip
      rw [List.zip_cons_cons]
      exact List.mem_cons_of_mem _ hpr
    · simpa using hlen
    · intro x hx
      rw [← hassoc] at hx
      exact hok x hx
    · rw [← hassoc]
      exact hpw
    · intro x hx
      exact hnorm x (List.mem_cons_of_mem _ hx)

theorem joinComma_data_cons (s1 s2 : String) (rest : List String) :
    (joinComma (s1 :: s2 :: rest)).data =
      s1.data ++ ',' :: (joinComma (s2 :: rest)).data := by
  show (s1 ++ "," ++ joinComma (s2 :: rest)).data = _
  rw [String.data_append, String.data_append]
  rw [show ("," : String).data = [','] from rfl]
  simp

theorem splitOnChar_joinComma : ∀ (ss : List String), ss ≠ [] →
    (∀ s ∈ ss, ',' ∉ s.data) →
    splitOnChar ',' (joinComma ss).data = ss.map String.data
  | [], h, _ => absurd rfl h
  | [s], _, hcf => by
    show splitOnChar ',' s.data = [s.data]
    exact splitOnChar_not_mem _ (hcf s (List.mem_cons_self _ _))
  | s1 :: s2 :: rest, _, hcf => by
    rw [joinComma_data_cons]
    rw [splitOnChar_append _ _ (hcf s1 (List.mem_cons_self _ _))]
    rw [splitOnChar_joinComma (s2 :: rest) (by simp)
      (fun s hs => hcf s (List.mem_cons_of_mem _ hs))]
    rfl

theorem joinComma_no_space : ∀ (ss : List String),
    (∀ s ∈ ss, ' ' ∉ s.data) → ' ' ∉ (joinComma ss).data
  | [], _ => by
    show ' ' ∉ ("" : String).data
    simp [show ("" : String).data = [] from rfl]
  | [s], h => h s (List.mem_cons_self _ _)
  | s1 :: s2 :: rest, h => by
    rw [joinComma_data_cons]
    intro hm
    rcases List.mem_append.mp hm with hm | hm
    · exact h s1 (List.mem_cons_self _ _) hm
    · rcases List.mem_cons.mp hm with hm | hm
      · exact absurd hm.symm (by decide)
      · exact joinComma_no_space (s2 :: rest)
          (fun s hs => h s (List.mem_cons_of_mem _ hs)) hm

/-- Round trip of a VersionList of two or more plain elements: `str` prints
the comma-join of the element strings, and `ver` parses that back to the
same element list provided the list is canonical, its elements are fixed by
normalization, and each element's string parses back to that element. -/
theorem list_roundtrip_aux {l : List VElem} {ss : List String}
    (hmap : l.mapM elemStr = .ok ss)
    (hlen2 : 2 ≤ l.length)
    (hcanon : Canon l)
    (hnorm : ∀ x ∈ l, normalizeAdd x = .ok x)
    (hpieces : ∀ pr ∈ ss.zip l, verPiece pr.1.data = .ok (.inl pr.2) ∧
      ',' ∉ pr.1.data ∧ ' ' ∉ pr.1.data) :
    listStr l = .ok (joinComma ss) ∧ verS (joinComma ss) = .ok (.l l) := by
  have hlen : ss.length = l.length := mapM_ok_length hmap
  have hssform : ∃ s1 s2 rest, ss = s1 :: s2 :: rest := by
    cases ss with
    | nil => simp at hlen; omega
    | cons s1 tl =>
      cases tl with
      | nil => simp at hlen; omega
      | cons s2 rest => exact ⟨s1, s2, rest, rfl⟩
  have hmemzipAux : ∀ (ss2 : List String) (l2 : List VElem),
      ss2.length = l2.length → ∀ s ∈ ss2, ∃ e, (s, e) ∈ ss2.zip l2 := by
    intro ss2
    induction ss2 with
    | nil => intro l2 _ s hs; simp at hs
    | cons s1 tl ih =>
      intro l2 hl s hs
      cases l2 with
      | nil => simp at hl
      | cons e1 l2t =>
        rcases List.mem_cons.mp hs with he | hmem
        · subst he
          exact ⟨e1, by
            rw [List.zip_cons_cons]
            exact List.mem_cons_self _ _⟩
        · obtain ⟨e, hin⟩ := ih l2t (by simpa using hl) s hmem
          exact ⟨e, by
            rw [List.zip_cons_cons]
            exact List.mem_cons_of_mem _ hin⟩
  have hmemzip : ∀ s ∈ ss, ∃ e, (s, e) ∈ ss.zip l := hmemzipAux ss l hlen
  have hcf : ∀ s ∈ ss, ',' ∉ s.data := by
    intro s hs
    obtain ⟨e, hin⟩ := hmemzip s hs
    exact ((hpieces (s, e) hin).2).1
  have hsf : ∀ s ∈ ss, ' ' ∉ s.data := by
    intro s hs
    obtain ⟨e, hin⟩ := hmemzip s hs
    exact ((hpieces (s, e) hin).2).2
  constructor
  · unfold listStr
    simp only [bind, Except.bind]
    rw [hmap]
    rfl
  · obtain ⟨s1, s2, rest, hss⟩ := hssform
    unfold verS
    dsimp only
    rw [filter_ne_space (joinComma_no_space ss hsf)]
    rw [contains_true_of_mem (c := ',') (by
      rw [hss, joinComma_data_cons]
      exact List.mem_append.mpr (Or.inr (List.mem_cons_self _ _)))]
    simp only [if_true]
    rw [splitOnChar_joinComma ss (by rw [hss]; simp) hcf]
    have hfold := verPieces_fold l (ss.map String.data) []
      (by
        intro pr hpr
        rw [List.zip_map_left] at hpr
        obtain ⟨⟨s, e⟩, hin, hpe⟩ := List.mem_map.mp hpr
        cases hpe
        exact (hpieces (s, e) hin).1)
      (by simp [hlen])
      (by
        intro x hx
        rw [List.nil_append] at hx
        exact hcanon.1 x hx)
      (by
        rw [List.nil_append]
        exact hcanon.2)
      hnorm
    rw [List.nil_append] at hfold
    rw [hfold]
    simp [bind, Except.bind, pure, Except.pure]

/-! ### Claim C8: string round trips -/

/-- C8 counterexample: the constructible range `1.2:!1.3` (inclusive left,
excluded right endpoint) prints as `"1.2:!1.3"`, but parsing that string
fails with the invalid-character error: the parser splits on `:` and hands
`!1.3` to the Version constructor, which rejects `!` as first character.
Canonical strings of ranges with an excluded finite endpoint never
round-trip. -/
theorem roundtrip_cex :
    mkVersionRange (some ⟨"1.2", [.num 1, .num 2], [".", ""]⟩)
      (some ⟨"1.3", [.num 1, .num 3], [".", ""]⟩) true false =
      .ok ⟨some ⟨"1.2", [.num 1, .num 2], [".", ""]⟩,
        some ⟨"1.3", [.num 1, .num 3], [".", ""]⟩, true, false⟩ ∧
    rangeStr ⟨some ⟨"1.2", [.num 1, .num 2], [".", ""]⟩,
      some ⟨"1.3", [.num 1, .num 3], [".", ""]⟩, true, false⟩ =
      .ok "1.2:!1.3" ∧
    verS "1.2:!1.3" = .error .badChars := by
  refine ⟨by decide, by decide, by decide⟩

/-- C8 (amended): the round trip holds on the plain fragment.  A Version
built by the constructor whose stored string has no comma, colon, space or
star component parses back to itself; a fully-inclusive range over two such
distinct Versions prints as `start:end` and parses back to itself; and a
canonical VersionList of two or more normalization-fixed elements whose
individual strings parse back to their elements prints as the comma-join and
parses back to the same element list.  Ranges with an excluded or missing
endpoint print with `!` or a bare `:` and do not round-trip in general (see
the counterexample). -/
theorem roundtrip_amended :
    (∀ (s : String) (v : VersionT), mkVersion s = .ok v →
      ',' ∉ v.string.data → ':' ∉ v.string.data → ' ' ∉ v.string.data →
      hasStarComponent (some v) = .ok false →
      verS v.string = .ok (.v v)) ∧
    (∀ (sa sb : String) (a b : VersionT) (r : VRange),
      mkVersion sa = .ok a → mkVersion sb = .ok b →
      ',' ∉ a.string.data → ':' ∉ a.string.data → ' ' ∉ a.string.data →
      ',' ∉ b.string.data → ':' ∉ b.string.data → ' ' ∉ b.string.data →
      vEq a b = false →
      mkVersionRange (some a) (some b) true true = .ok r →
      rangeStr r = .ok (a.string ++ ":" ++ b.string) ∧
      verS (a.string ++ ":" ++ b.string) = .ok (.r r)) ∧
    (∀ (l : List VElem) (ss : List String),
      l.mapM elemStr = .ok ss → 2 ≤ l.length → Canon l →
      (∀ x ∈ l, normalizeAdd x = .ok x) →
      (∀ pr ∈ ss.zip l, verPiece pr.1.data = .ok (.inl pr.2) ∧
        ',' ∉ pr.1.data ∧ ' ' ∉ pr.1.data) →
      listStr l = .ok (joinComma ss) ∧ verS (joinComma ss) = .ok (.l l)) :=
  ⟨fun _ _ h hc hcol hsp hstar => version_roundtrip_aux h hc hcol hsp hstar,
   fun _ _ _ _ _ ha hb h1 h2 h3 h4 h5 h6 hne hmk =>
     range_roundtrip_aux ha hb h1 h2 h3 h4 h5 h6 hne hmk,
   fun _ _ hmap hlen hcn hnorm hp =>
     list_roundtrip_aux hmap hlen hcn hnorm hp⟩

/-- Witness: the Version clause of `roundtrip_amended` at the string
`"1.2"`. -/
theorem roundtrip_amended_witness :
    verS (VersionT.string ⟨"1.2", [.num 1, .num 2], [".", ""]⟩) =
      .ok (.v ⟨"1.2", [.num 1, .num 2], [".", ""]⟩) :=
  roundtrip_amended.1 "1.2" ⟨"1.2", [.num 1, .num 2], [".", ""]⟩
    (by decide) (by decide) (by decide) (by decide) (by decide)

/-! ### Claim C9: VersionList containment -/

theorem allM_ok_true {f : VElem → Except VErr Bool} :
    ∀ {l : List VElem}, List.allM f l = .ok true → ∀ x ∈ l, f x = .ok true
  | [], _, x, hx => absurd hx (by simp)
  | a :: as, h, x, hx => by
    rw [show List.allM f (a :: as) = (f a >>= fun b =>
      match b with
      | true => List.allM f as
      | false => pure false) from rfl] at h
    simp only [bind, Except.bind] at h
    cases hfa : f a with
    | error e => rw [hfa] at h; simp at h
    | ok b =>
      rw [hfa] at h
      dsimp only at h
      cases b with
      | false => simp [pure, Except.pure] at h
      | true =>
        rcases List.mem_cons.mp hx with he | hmem
        · subst he; exact hfa
        · exact allM_ok_true h x hmem

theorem allM_ok_false {f : VElem → Except VErr Bool} :
    ∀ {l : List VElem}, List.allM f l = .ok false → ∃ x ∈ l, f x = .ok false
  | [], h => by
    rw [show List.allM f [] = pure true from rfl] at h
    simp [pure, Except.pure] at h
  | a :: as, h => by
    rw [show List.allM f (a :: as) = (f a >>= fun b =>
      match b with
      | true => List.allM f as
      | false => pure false) from rfl] at h
    simp only [bind, Except.bind] at h
    cases hfa : f a with
    | error e => rw [hfa] at h; simp at h
    | ok b =>
      rw [hfa] at h
      dsimp only at h
      cases b with
      | false => exact ⟨a, List.mem_cons_self _ _, hfa⟩
      | true =>
        obtain ⟨x, hm, hfx⟩ := allM_ok_false h
        exact ⟨x, List.mem_cons_of_mem _ hm, hfx⟩

/-- C9 counterexample: for the canonical lists A = [2, 5:6] and B = [1]
(both reproduced verbatim by `add` from the empty list), every element of B
is contained in some element of A — the range 5:6 contains the Version 1
because `__contains__`'s Python operator precedence makes any
inclusive-endpoint comparand contained — yet `B in A` is False: the
bisection lands at 0 and only A[0] = Version 2 is consulted.  Also, with A
empty and B empty, every element of B is vacuously contained in some
element of A, yet membership is False. -/
theorem list_contains_cex :
    (addMany [] [.version ⟨"2", [.num 2], [""]⟩,
      .range ⟨some ⟨"5", [.num 5], [""]⟩, some ⟨"6", [.num 6], [""]⟩,
        true, true⟩] =
      .ok [.version ⟨"2", [.num 2], [""]⟩,
        .range ⟨some ⟨"5", [.num 5], [""]⟩, some ⟨"6", [.num 6], [""]⟩,
          true, true⟩]) ∧
    (addMany [] [.version ⟨"1", [.num 1], [""]⟩] =
      .ok [.version ⟨"1", [.num 1], [""]⟩]) ∧
    (listContains
      [.version ⟨"2", [.num 2], [""]⟩,
        .range ⟨some ⟨"5", [.num 5], [""]⟩, some ⟨"6", [.num 6], [""]⟩,
          true, true⟩]
      [.version ⟨"1", [.num 1], [""]⟩] = .ok false) ∧
    ([.version ⟨"1", [.num 1], [""]⟩].all (fun w =>
      [.version ⟨"2", [.num 2], [""]⟩,
        .range ⟨some ⟨"5", [.num 5], [""]⟩, some ⟨"6", [.num 6], [""]⟩,
          true, true⟩].any (fun v => elemContains v w)) = true) ∧
    (listContains ([] : List VElem) ([] : List VElem) = .ok false) := by
  refine ⟨by decide, by decide, by decide, by decide, by decide⟩

/-- C9 (amended): membership is sound but not complete for element-wise
containment.  If `B in A` returns True then every element of B is contained
in some element of A; if it returns False on a nonempty A, then some
element w of B fails the code's restricted check: with i the bisect
position of the whole list B against A, either i = 0 and w is not contained
in A[0], or i > 0 and w is contained in no element of the suffix A[i-1:].
Elements of A before position i-1 are never consulted, so the converse of
the claim fails (see the counterexample). -/
theorem list_contains_amended :
    (∀ (self other : List VElem), listContains self other = .ok true →
      ∀ w ∈ other, ∃ v ∈ self, elemContains v w = true) ∧
    (∀ (self other : List VElem), listContains self other = .ok false →
      self.isEmpty = false →
      ∃ w ∈ other, ∃ i, bisectContains self other = .ok i ∧
        ((i = 0 ∧ elemContains (self.headD dummyElem) w = false) ∨
         (i ≠ 0 ∧
           (self.drop (i - 1)).any (fun v => elemContains v w) = false))) := by
  constructor
  · intro self other h w hw
    unfold listContains at h
    by_cases hemp : self.isEmpty = true
    · rw [if_pos hemp] at h
      simp [pure, Except.pure] at h
    · rw [if_neg hemp] at h
      have hfw := allM_ok_true h w hw
      cases hbc : bisectContains self other with
      | error e =>
        rw [show (do
          let i ← bisectContains self other
          if i = 0 then
            pure (elemContains (self.headD dummyElem) w)
          else
            pure ((self.drop (i - 1)).any fun v => elemContains v w)) =
            Except.bind (bisectContains self other) (fun i =>
              if i = 0 then
                pure (elemContains (self.headD dummyElem) w)
              else
                pure ((self.drop (i - 1)).any fun v => elemContains v w))
          from rfl, hbc] at hfw
        simp [Except.bind] at hfw
      | ok i =>
        rw [show (do
          let i ← bisectContains self other
          if i = 0 then
            pure (elemContains (self.headD dummyElem) w)
          else
            pure ((self.drop (i - 1)).any fun v => elemContains v w)) =
            Except.bind (bisectContains self other) (fun i =>
              if i = 0 then
                pure (elemContains (self.headD dummyElem) w)
              else
                pure ((self.drop (i - 1)).any fun v => elemContains v w))
          from rfl, hbc] at hfw
        dsimp only [Except.bind] at hfw
        by_cases hi : i = 0
        · rw [if_pos hi] at hfw
          simp only [pure, Except.pure, Except.ok.injEq] at hfw
          cases self with
          | nil => simp at hemp
          | cons a as =>
            exact ⟨a, List.mem_cons_self _ _, hfw⟩
        · rw [if_neg hi] at hfw
          simp only [pure, Except.pure, Except.ok.injEq] at hfw
          obtain ⟨v, hv, hc⟩ := List.any_eq_true.mp hfw
          exact ⟨v, (List.drop_suffix _ _).subset hv,
            by simpa using hc⟩
  · intro self other h hne
    unfold listContains at h
    rw [if_neg (by simp [hne])] at h
    obtain ⟨w, hw, hfw⟩ := allM_ok_false h
    refine ⟨w, hw, ?_⟩
    cases hbc : bisectContains self other with
    | error e =>
      rw [show (do
        let i ← bisectContains self other
        if i = 0 then
          pure (elemContains (self.headD dummyElem) w)
        else
          pure ((self.drop (i - 1)).any fun v => elemContains v w)) =
          Except.bind (bisectContains self other) (fun i =>
            if i = 0 then
              pure (elemContains (self.headD dummyElem) w)
            else
              pure ((self.drop (i - 1)).any fun v => elemContains v w))
        from rfl, hbc] at hfw
      simp [Except.bind] at hfw
    | ok i =>
      rw [show (do
        let i ← bisectContains self other
        if i = 0 then
          pure (elemContains (self.headD dummyElem) w)
        else
          pure ((self.drop (i - 1)).any fun v => elemContains v w)) =
          Except.bind (bisectContains self other) (fun i =>
            if i = 0 then
              pure (elemContains (self.headD dummyElem) w)
            else
              pure ((self.drop (i - 1)).any fun v => elemContains v w))
        from rfl, hbc] at hfw
      dsimp only [Except.bind] at hfw
      refine ⟨i, rfl, ?_⟩
      by_cases hi : i = 0
      · rw [if_pos hi] at hfw
        simp only [pure, Except.pure, Except.ok.injEq] at hfw
        exact Or.inl ⟨hi, hfw⟩
      · rw [if_neg hi] at hfw
        simp only [pure, Except.pure, Except.ok.injEq] at hfw
        exact Or.inr ⟨hi, hfw⟩

/-- Witness: the soundness clause of `list_contains_amended` at A = [2] and
B = [2.5] (the Version 2.5 is contained in the Version 2 by the prefix
rule). -/
theorem list_contains_amended_witness :
    ∃ v ∈ [VElem.version ⟨"2", [.num 2], [""]⟩],
      elemContains v (.version ⟨"2.5", [.num 2, .num 5], [".", ""]⟩) =
        true :=
  list_contains_amended.1 [.version ⟨"2", [.num 2], [""]⟩]
    [.version ⟨"2.5", [.num 2, .num 5], [".", ""]⟩] (by decide)
    (.version ⟨"2.5", [.num 2, .num 5], [".", ""]⟩) (by simp)

/-! ### Claim C4: Range union -/

/-- C4 counterexample: for the overlapping ranges 1:4.7 and 2:4.7.3 the
union is 1:4.7, whose high endpoint is strictly below the maximum (4.7.3)
of the two high endpoints in both the Version order and the endpoint order:
the prefix end 4.7 is kept instead of the maximum. -/
theorem range_union_cex :
    rangeUnion
      ⟨some ⟨"1", [.num 1], [""]⟩,
        some ⟨"4.7", [.num 4, .num 7], [".", ""]⟩, true, true⟩
      ⟨some ⟨"2", [.num 2], [""]⟩,
        some ⟨"4.7.3", [.num 4, .num 7, .num 3], [".", ".", ""]⟩, true, true⟩ =
      .ok (.inl ⟨some ⟨"1", [.num 1], [""]⟩,
        some ⟨"4.7", [.num 4, .num 7], [".", ""]⟩, true, true⟩) ∧
    rangeOverlaps
      ⟨some ⟨"1", [.num 1], [""]⟩,
        some ⟨"4.7", [.num 4, .num 7], [".", ""]⟩, true, true⟩
      ⟨some ⟨"2", [.num 2], [""]⟩,
        some ⟨"4.7.3", [.num 4, .num 7, .num 3], [".", ".", ""]⟩, true, true⟩ =
      true ∧
    vLt ⟨"4.7", [.num 4, .num 7], [".", ""]⟩
      ⟨"4.7.3", [.num 4, .num 7, .num 3], [".", ".", ""]⟩ = true ∧
    epLt ⟨some ⟨"4.7", [.num 4, .num 7], [".", ""]⟩, .right, true⟩
      ⟨some ⟨"4.7.3", [.num 4, .num 7, .num 3], [".", ".", ""]⟩, .right,
        true⟩ = true := by
  refine ⟨by decide, by decide, by decide, by decide⟩

/-- C4 amended: for constructible ranges, if the two ranges overlap the
union is the single fully-inclusive Range whose start is the minimum of the
two starts (`None` = −∞) and whose end is the maximum of the two ends
(`None` = +∞) — except that when one end's segment sequence is a prefix of
the other's, the prefix (containing) end is kept; if they are disjoint but
one range's end is `is_predecessor` of the other's start the result is the
Range built from the outer endpoints (raising when that range is inverted);
otherwise the two operands are returned for the two-element List.  Union of
1.0:1.5 and 1.6:2.0 is 1.0:2.0. -/
theorem range_union_characterization :
    (∀ r s : VRange, rangeValidB r → rangeValidB s →
      rangeOverlaps r s = true →
      ∃ u, rangeUnion r s = .ok (.inl u) ∧
        u.includes_left_endpoint = true ∧
        u.includes_right_endpoint = true ∧
        (u.start = r.start ∨ u.start = s.start) ∧
        startLe u.start r.start ∧ startLe u.start s.start ∧
        (u.«end» = r.«end» ∨ u.«end» = s.«end») ∧
        (match r.«end», s.«end» with
         | some se, some oe =>
           if se.version <+: oe.version ∨ oe.version <+: se.version then
             ∃ w, u.«end» = some w ∧ w.version <+: se.version ∧
               w.version <+: oe.version
           else endGe u.«end» r.«end» ∧ endGe u.«end» s.«end»
         | _, _ => u.«end» = none)) ∧
    (∀ r s : VRange, rangeOverlaps r s = false →
      (match r.«end», s.start with
       | some se, some os => vIsPredecessor se os
       | _, _ => pure false) = .ok true →
      rangeUnion r s = (mkVersionRange r.start s.«end» true true).map .inl) ∧
    (∀ r s : VRange, rangeOverlaps r s = false →
      (match r.«end», s.start with
       | some se, some os => vIsPredecessor se os
       | _, _ => pure false) = .ok false →
      (match s.«end», r.start with
       | some oe, some ss => vIsPredecessor oe ss
       | _, _ => pure false) = .ok true →
      rangeUnion r s = (mkVersionRange s.start r.«end» true true).map .inl) ∧
    (∀ r s : VRange, rangeOverlaps r s = false →
      (match r.«end», s.start with
       | some se, some os => vIsPredecessor se os
       | _, _ => pure false) = .ok false →
      (match s.«end», r.start with
       | some oe, some ss => vIsPredecessor oe ss
       | _, _ => pure false) = .ok false →
      rangeUnion r s = .ok (.inr (r, s))) ∧
    rangeUnion
      ⟨some ⟨"1.0", [.num 1, .num 0], [".", ""]⟩,
        some ⟨"1.5", [.num 1, .num 5], [".", ""]⟩, true, true⟩
      ⟨some ⟨"1.6", [.num 1, .num 6], [".", ""]⟩,
        some ⟨"2.0", [.num 2, .num 0], [".", ""]⟩, true, true⟩ =
      .ok (.inl ⟨some ⟨"1.0", [.num 1, .num 0], [".", ""]⟩,
        some ⟨"2.0", [.num 2, .num 0], [".", ""]⟩, true, true⟩) := by
  refine ⟨?_, ?_, ?_, ?_, by decide⟩
  · intro r s hr hs hov
    refine ⟨⟨unionStart r s, unionEnd r s, true, true⟩, ?_, rfl, rfl, ?_, ?_,
      ?_, ?_, ?_⟩
    · unfold rangeUnion
      rw [hov]
      simp only [Bool.not_true, Bool.false_eq_true, if_false]
      rw [rangeUnionMerged_ok hr hs]
      rfl
    · exact (unionStart_cases r s).1
    · exact (unionStart_cases r s).2.1
    · exact (unionStart_cases r s).2.2
    · exact (unionEnd_cases r s).1
    · exact (unionEnd_cases r s).2
  · intro r s hov hp1
    unfold rangeUnion
    rw [hov]
    simp only [Bool.not_false, if_true]
    rw [hp1]
    cases hm : mkVersionRange r.start s.«end» true true <;>
      simp [Except.map, bind, Except.bind, hm, pure, Except.pure]
  · intro r s hov hp1 hp2
    unfold rangeUnion
    rw [hov]
    simp only [Bool.not_false, if_true]
    rw [hp1]
    simp only [bind, Except.bind, Bool.false_eq_true, if_false]
    rw [hp2]
    cases hm : mkVersionRange s.start r.«end» true true <;>
      simp [Except.map, bind, Except.bind, hm, pure, Except.pure]
  · intro r s hov hp1 hp2
    unfold rangeUnion
    rw [hov]
    simp only [Bool.not_false, if_true]
    rw [hp1]
    simp only [bind, Except.bind, Bool.false_eq_true, if_false]
    rw [hp2]
    simp [pure, Except.pure]

/-- Witness for `range_union_characterization`: the overlap clause applied
at the concrete ranges 1:4.7 and 2:4.7.3, and the disjoint clause at
1.0:1.5 and 1.7:2.0. -/
theorem range_union_characterization_witness :
    (∃ u, rangeUnion
      ⟨some ⟨"1", [.num 1], [""]⟩,
        some ⟨"4.7", [.num 4, .num 7], [".", ""]⟩, true, true⟩
      ⟨some ⟨"2", [.num 2], [""]⟩,
        some ⟨"4.7.3", [.num 4, .num 7, .num 3], [".", ".", ""]⟩, true, true⟩ =
        .ok (.inl u) ∧
      u.includes_left_endpoint = true ∧
      u.includes_right_endpoint = true ∧
      (u.start = (⟨some ⟨"1", [.num 1], [""]⟩,
        some ⟨"4.7", [.num 4, .num 7], [".", ""]⟩, true, true⟩ : VRange).start ∨
       u.start = (⟨some ⟨"2", [.num 2], [""]⟩,
        some ⟨"4.7.3", [.num 4, .num 7, .num 3], [".", ".", ""]⟩, true,
          true⟩ : VRange).start)) ∧
    rangeUnion
      ⟨some ⟨"1.0", [.num 1, .num 0], [".", ""]⟩,
        some ⟨"1.5", [.num 1, .num 5], [".", ""]⟩, true, true⟩
      ⟨some ⟨"1.7", [.num 1, .num 7], [".", ""]⟩,
        some ⟨"2.0", [.num 2, .num 0], [".", ""]⟩, true, true⟩ =
      .ok (.inr (⟨some ⟨"1.0", [.num 1, .num 0], [".", ""]⟩,
        some ⟨"1.5", [.num 1, .num 5], [".", ""]⟩, true, true⟩,
        ⟨some ⟨"1.7", [.num 1, .num 7], [".", ""]⟩,
        some ⟨"2.0", [.num 2, .num 0], [".", ""]⟩, true, true⟩)) := by
  constructor
  · obtain ⟨u, h1, h2, h3, h4, _⟩ :=
      range_union_characterization.1
        ⟨some ⟨"1", [.num 1], [""]⟩,
          some ⟨"4.7", [.num 4, .num 7], [".", ""]⟩, true, true⟩
        ⟨some ⟨"2", [.num 2], [""]⟩,
          some ⟨"4.7.3", [.num 4, .num 7, .num 3], [".", ".", ""]⟩, true,
            true⟩
        (by intro a b ha hb hna hnb; cases ha; cases hb; decide)
        (by intro a b ha hb hna hnb; cases ha; cases hb; decide)
        (by decide)
    exact ⟨u, h1, h2, h3, h4⟩
  · exact range_union_characterization.2.2.2.1
      ⟨some ⟨"1.0", [.num 1, .num 0], [".", ""]⟩,
        some ⟨"1.5", [.num 1, .num 5], [".", ""]⟩, true, true⟩
      ⟨some ⟨"1.7", [.num 1, .num 7], [".", ""]⟩,
        some ⟨"2.0", [.num 2, .num 0], [".", ""]⟩, true, true⟩
      (by decide) (by decide) (by decide)

/-! ### Claim C3: Range satisfies -/

/-- C3 counterexample: with `r = 5:6` and `s` the constructible range from
`9` to the zero-segment `Version(".")`, `r.start` and `s.end` are both
finite and `s.end`'s (empty) segment sequence is a prefix of `r.start`'s,
yet `r.satisfies(s)` is False: the ranges do not overlap and Python
truthiness discards the zero-segment endpoint before the prefix test. -/
theorem range_satisfies_cex :
    mkVersionRange (some ⟨"9", [.num 9], [""]⟩) (some ⟨".", [], []⟩)
      true true =
      .ok ⟨some ⟨"9", [.num 9], [""]⟩, some ⟨".", [], []⟩, true, true⟩ ∧
    rangeSatisfies
      ⟨some ⟨"5", [.num 5], [""]⟩, some ⟨"6", [.num 6], [""]⟩, true, true⟩
      ⟨some ⟨"9", [.num 9], [""]⟩, some ⟨".", [], []⟩, true, true⟩ = false ∧
    rangeOverlaps
      ⟨some ⟨"5", [.num 5], [""]⟩, some ⟨"6", [.num 6], [""]⟩, true, true⟩
      ⟨some ⟨"9", [.num 9], [""]⟩, some ⟨".", [], []⟩, true, true⟩ = false ∧
    List.isPrefixOf ([] : List Seg) [Seg.num 5] = true := by
  refine ⟨by decide, by decide, by decide, by decide⟩

/-- C3 amended: `r.satisfies(s)` holds iff `r` overlaps `s`, or `r.start`
and `s.end` are both finite with nonempty segment sequences and `s.end`'s
segments are a prefix of `r.start`'s segments; in particular the range
parsed from 4.5:4.7 satisfies the range parsed from 4.7.3:4.8. -/
theorem range_satisfies_iff :
    (∀ r s : VRange, rangeSatisfies r s = true ↔
      (rangeOverlaps r s = true ∨
        ∃ a b, r.start = some a ∧ s.«end» = some b ∧
          a.version ≠ [] ∧ b.version ≠ [] ∧ b.version <+: a.version)) ∧
    verS "4.5:4.7" = .ok (.r ⟨some ⟨"4.5", [.num 4, .num 5], [".", ""]⟩,
      some ⟨"4.7", [.num 4, .num 7], [".", ""]⟩, true, true⟩) ∧
    verS "4.7.3:4.8" =
      .ok (.r ⟨some ⟨"4.7.3", [.num 4, .num 7, .num 3], [".", ".", ""]⟩,
        some ⟨"4.8", [.num 4, .num 8], [".", ""]⟩, true, true⟩) ∧
    rangeSatisfies
      ⟨some ⟨"4.5", [.num 4, .num 5], [".", ""]⟩,
        some ⟨"4.7", [.num 4, .num 7], [".", ""]⟩, true, true⟩
      ⟨some ⟨"4.7.3", [.num 4, .num 7, .num 3], [".", ".", ""]⟩,
        some ⟨"4.8", [.num 4, .num 8], [".", ""]⟩, true, true⟩ = true := by
  refine ⟨?_, by decide, by decide, by decide⟩
  intro r s
  simp only [rangeSatisfies, Bool.or_eq_true, Bool.and_eq_true]
  constructor
  · rintro (h1 | ⟨⟨ht1, ht2⟩, h3⟩)
    · exact Or.inl h1
    · right
      cases hrs : r.start with
      | none => rw [hrs] at ht1; simp [optTruthy] at ht1
      | some a =>
        cases hse : s.«end» with
        | none => rw [hse] at ht2; simp [optTruthy] at ht2
        | some b =>
          rw [hrs] at ht1
          rw [hse] at ht2
          rw [hrs, hse] at h3
          exact ⟨a, b, rfl, rfl,
            by simpa [optTruthy, List.isEmpty_iff] using ht1,
            by simpa [optTruthy, List.isEmpty_iff] using ht2,
            vSatisfies_iff.mp h3⟩
  · rintro (h | ⟨a, b, ha, hb, hna, hnb, hp⟩)
    · exact Or.inl h
    · right
      rw [ha, hb]
      exact ⟨⟨by simpa [optTruthy, List.isEmpty_iff] using hna,
        by simpa [optTruthy, List.isEmpty_iff] using hnb⟩,
        vSatisfies_iff.mpr hp⟩

/-- Witness for `range_satisfies_iff`: the backward direction of the
equivalence applied at the two concrete parsed ranges. -/
theorem range_satisfies_iff_witness :
    rangeSatisfies
      ⟨some ⟨"4.5", [.num 4, .num 5], [".", ""]⟩,
        some ⟨"4.7", [.num 4, .num 7], [".", ""]⟩, true, true⟩
      ⟨some ⟨"4.7.3", [.num 4, .num 7, .num 3], [".", ".", ""]⟩,
        some ⟨"4.8", [.num 4, .num 8], [".", ""]⟩, true, true⟩ = true :=
  (range_satisfies_iff.1 _ _).mpr (Or.inl (by decide))

/-! ### Claim C10: operations on the empty VersionList -/

/-- C10: on the empty VersionList, `lowest` and `highest` return `None`
rather than raising, and the empty list never satisfies, overlaps or
contains anything, itself included, so satisfies-reflexivity does not extend
to the empty list. -/
theorem empty_list_behaviour :
    listLowest [] = none ∧ listHighest [] = none ∧
    (∀ l, listOverlaps [] l = false) ∧
    (∀ l, listOverlaps l [] = false) ∧
    (∀ l strict, listSatisfies [] l strict = .ok false) ∧
    (∀ l strict, listSatisfies l [] strict = .ok false) ∧
    (∀ l, listContains [] l = .ok false) ∧
    listSatisfies [] [] false = .ok false := by
  refine ⟨rfl, rfl, ?_, ?_, ?_, ?_, ?_, rfl⟩
  · intro l; simp [listOverlaps]
  · intro l; simp [listOverlaps]
  · intro l strict; simp [listSatisfies, pure, Except.pure]
  · intro l strict; simp [listSatisfies, pure, Except.pure]
  · intro l; simp [listContains, pure, Except.pure]

end Spack
